import Mathlib

/-!
Verification of the UPE (userspace packet engine) datapath core against its
specification.  Each C component is shallowly embedded as executable Lean
definitions: frames are lists of byte values, machine integers are `Nat`
(XOR / AND never overflow; where the C wraps, an explicit `%` is used),
fallible functions return an explicit result type.  The embeddings mirror the
control flow of `parser.c`, `rule_table.c`, `ring.c`, `pktbuf.c`,
`arp_table.c` and `ndp_table.c` statement by statement.
-/

namespace UPE

/-! ## Parser (`src/parser.c`)

A frame is a byte slice, modelled as `List Nat`; real frames have every
element `< 256`.  `parse_flow_key` returns `-1` on malformed input, modelled
by `reject`.  Every memory read the C code performs is modelled by a
bounds-guarded access; an access outside the slice yields `oob`, a result
the C function is proved never to produce. -/

/-- Result of a parse: a value, the C `-1` rejection, or an out-of-bounds
read (which the C code never performs, see the parser-soundness theorem). -/
inductive parse_result (α : Type) where
  | ok (val : α)
  | reject
  | oob
deriving DecidableEq, Repr

/-- The `flow_key_t` of `parser.h`: IP version, source/destination address
(the C union holds a 32-bit word for IPv4 and 16 bytes for IPv6; the model
carries both views as separate fields), ports and protocol.  All values are
host order after parsing. -/
structure flow_key_t where
  ip_ver : Nat
  src_ip4 : Nat
  dst_ip4 : Nat
  src_ip6 : List Nat
  dst_ip6 : List Nat
  src_port : Nat
  dst_port : Nat
  protocol : Nat
deriving DecidableEq, Repr

/-- The all-zero flow key (the C `out` structure before any field is set). -/
def flow_key_t.zero : flow_key_t :=
  { ip_ver := 0, src_ip4 := 0, dst_ip4 := 0
    src_ip6 := List.replicate 16 0, dst_ip6 := List.replicate 16 0
    src_port := 0, dst_port := 0, protocol := 0 }

/-- State of `parse_flow_key` after the L3 stage (lines 6-68 of `parser.c`):
the partially-filled key (addresses and protocol set, ports still zero) and
the byte offset `l4_off` of the L4 header, i.e. the C `l4_ptr - pkt`.
The C `l4_len` is `pkt.length - l4_off`. -/
structure l3_info_t where
  key : flow_key_t
  l4_off : Nat
deriving DecidableEq, Repr

/-- L3 stage of `parse_flow_key` (`parser.c` lines 6-68).  `ntohs`/`ntohl`
of a wire field with bytes `b0 b1 ...` (network order) is the big-endian
assembly `b0*256 + b1` etc.  The reads of the fixed IPv4 header fields are
grouped under the single bound `pkt.length >= 34` that guards all of them in
the C code (`ip_len >= sizeof(struct ipv4_hdr)`); likewise for IPv6. -/
def parseL3 (pkt : List Nat) : parse_result l3_info_t :=
  if h14 : pkt.length < 14 then .reject
  else
    let ethertype := pkt[12] * 256 + pkt[13]
    if ethertype = 0x0800 then
      if pkt.length - 14 < 20 then .reject
      else if h34 : pkt.length < 34 then .oob
      else
        let ver_ihl := pkt[14]
        let version := ver_ihl / 16
        let ihl := ver_ihl % 16
        let ip_hdr_len := ihl * 4
        if version ≠ 4 ∨ ip_hdr_len < 20 ∨ pkt.length - 14 < ip_hdr_len then .reject
        else
          .ok { key :=
                 { flow_key_t.zero with
                    ip_ver := 4
                    src_ip4 := ((pkt[26] * 256 + pkt[27]) * 256 + pkt[28]) * 256 + pkt[29]
                    dst_ip4 := ((pkt[30] * 256 + pkt[31]) * 256 + pkt[32]) * 256 + pkt[33]
                    protocol := pkt[23] }
                l4_off := 14 + ip_hdr_len }
    else if ethertype = 0x86DD then
      if pkt.length - 14 < 40 then .reject
      else if h54 : pkt.length < 54 then .oob
      else
        .ok { key :=
               { flow_key_t.zero with
                  ip_ver := 6
                  src_ip6 := (pkt.drop 22).take 16
                  dst_ip6 := (pkt.drop 38).take 16
                  protocol := pkt[20] }
              l4_off := 54 }
    else .reject

/-- L4 stage of `parse_flow_key` (`parser.c` lines 70-108): dispatch on the
protocol recorded by the L3 stage.  UDP (17) and ICMP (1) need 8 bytes, TCP
(6) needs 20 and a valid data offset; everything else is rejected. -/
def parseL4 (pkt : List Nat) (info : l3_info_t) : parse_result flow_key_t :=
  let o := info.l4_off
  let l4_len := pkt.length - o
  let k := info.key
  if k.protocol = 17 then
    if l4_len < 8 then .reject
    else if h : pkt.length < o + 4 then .oob
    else .ok { k with src_port := pkt[o] * 256 + pkt[o+1]
                      dst_port := pkt[o+2] * 256 + pkt[o+3] }
  else if k.protocol = 6 then
    if l4_len < 20 then .reject
    else if h : pkt.length < o + 20 then .oob
    else
      let data_offset_words := pkt[o+12] / 16
      let tcp_hdr_len := data_offset_words * 4
      if tcp_hdr_len < 20 ∨ l4_len < tcp_hdr_len then .reject
      else .ok { k with src_port := pkt[o] * 256 + pkt[o+1]
                        dst_port := pkt[o+2] * 256 + pkt[o+3] }
  else if k.protocol = 1 then
    if l4_len < 8 then .reject
    else if h : pkt.length < o + 6 then .oob
    else .ok { k with src_port := pkt[o+4] * 256 + pkt[o+5]
                      dst_port := (pkt[o] <<< 8) ||| pkt[o+1] }
  else .reject

/-- `parse_flow_key` (`parser.c` lines 6-111): the L3 stage followed by the
L4 dispatch. -/
def parse_flow_key (pkt : List Nat) : parse_result flow_key_t :=
  match parseL3 pkt with
  | .ok info => parseL4 pkt info
  | .reject => .reject
  | .oob => .oob

/-- Little-endian 32-bit word number `j` of a byte array, as read by the C
casts `(const uint32_t *)k->src_ip.v6` on the (little-endian) target. -/
def le32 (a : List Nat) (j : Nat) : Nat :=
  a.getD (4*j) 0 + a.getD (4*j+1) 0 * 256 +
    a.getD (4*j+2) 0 * 65536 + a.getD (4*j+3) 0 * 16777216

/-- `flow_hash` (`parser.c` lines 113-135): XOR of ports and protocol, then
XOR of both endpoint addresses (IPv4 words, or the four 32-bit chunks of
each IPv6 address).  XOR of 32-bit values never overflows, so `Nat` XOR is
exact.  The C null-pointer guard has no counterpart for a value argument. -/
def flow_hash (k : flow_key_t) : Nat :=
  let h := k.src_port ^^^ k.dst_port ^^^ k.protocol
  if k.ip_ver = 4 then
    h ^^^ k.src_ip4 ^^^ k.dst_ip4
  else if k.ip_ver = 6 then
    (List.range 4).foldl (fun acc i => acc ^^^ le32 k.src_ip6 i ^^^ le32 k.dst_ip6 i) h
  else h

/-- Endpoint swap of a flow key, as in the specification's symmetry
property: `(src_ip, src_port)` exchanged with `(dst_ip, dst_port)`. -/
def swap_endpoints (k : flow_key_t) : flow_key_t :=
  { k with src_ip4 := k.dst_ip4, dst_ip4 := k.src_ip4
           src_ip6 := k.dst_ip6, dst_ip6 := k.src_ip6
           src_port := k.dst_port, dst_port := k.src_port }

/-- The 16-bit-word accumulation loop of `ipv4_checksum` (`parser.c` lines
144-153): sum of little-endian 16-bit loads (value `b0 + 256*b1`), plus a
final lone byte when the length is odd. -/
def sum16 : List Nat → Nat
  | [] => 0
  | [b] => b
  | b0 :: b1 :: rest => (b0 + 256 * b1) + sum16 rest

/-- The carry-folding loop of `ipv4_checksum` (`parser.c` lines 163-165):
`sum >> 16` is `sum / 2^16` and `sum & 0xFFFF` is `sum % 2^16`; repeat while
any bit above 16 remains. -/
def fold16 (x : Nat) : Nat :=
  if h : x < 65536 then x
  else fold16 (x % 65536 + x / 65536)
termination_by x
decreasing_by omega

/-- `ipv4_checksum` (`parser.c` lines 137-169): one's-complement 16-bit sum;
the final `(uint16_t)~sum` on a folded `sum < 2^16` is `65535 - sum`. -/
def ipv4_checksum (data : List Nat) : Nat :=
  65535 - fold16 (sum16 data)

/-! ## Rule table (`src/rule_table.c`)

Rules and the priority-ordered classifier.  The C table is a capacity-bounded
array with a count; the model keeps the live rules as a list (the array
prefix `[0, count)`) plus the capacity.  `qsort` with the comparator
`rule_priority_cmp` is deterministic here because `(priority, rule_id)` keys
are pairwise distinct (rule ids are unique); any sorting algorithm yields the
unique sorted permutation, modelled by insertion sort. -/

/-- The `flow_action_t` of `rule_table.h`: `ACT_DROP = 0`, `ACT_FWD = 1`,
plus the egress interface index. -/
structure flow_action_t where
  action_ty : Nat
  out_ifindex : Int
deriving DecidableEq, Repr

/-- The `rule_t` of `rule_table.h` (with the IPv6 fields of the address
unions carried alongside the 32-bit views, as for `flow_key_t`). -/
structure rule_t where
  priority : Nat
  ip_ver : Nat
  src_ip4 : Nat
  src_mask4 : Nat
  dst_ip4 : Nat
  dst_mask4 : Nat
  src_ip6 : List Nat
  src_mask6 : List Nat
  dst_ip6 : List Nat
  dst_mask6 : List Nat
  src_port : Nat
  dst_port : Nat
  protocol : Nat
  action : flow_action_t
  rule_id : Nat
deriving DecidableEq, Repr

/-- `match_ip` (`rule_table.c` line 67): masked 32-bit address comparison;
a zero mask makes both sides 0, i.e. a wildcard. -/
def match_ip (pkt_ip rule_ip mask : Nat) : Bool :=
  (pkt_ip &&& mask) = (rule_ip &&& mask)

/-- `match_ipv6` (`rule_table.c` line 52): bytewise masked comparison of the
16-byte addresses.  Defined in the C file but never called by `match_rule`. -/
def match_ipv6 (pkt_ip rule_ip mask : List Nat) : Bool :=
  (List.range 16).all fun i =>
    (pkt_ip.getD i 0 &&& mask.getD i 0) = (rule_ip.getD i 0 &&& mask.getD i 0)

/-- `match_rule` (`rule_table.c` lines 76-90).  Version, protocol and port
fields are wildcarded by zero; IPv4 addresses are compared under the rule's
masks.  For `ip_ver == 6` the C body is an empty `TODO` branch, so the
function falls through to `return true` without any address comparison. -/
def match_rule (r : rule_t) (k : flow_key_t) : Bool :=
  if r.ip_ver ≠ 0 ∧ r.ip_ver ≠ k.ip_ver then false
  else if r.protocol ≠ 0 ∧ r.protocol ≠ k.protocol then false
  else if r.src_port ≠ 0 ∧ r.src_port ≠ k.src_port then false
  else if r.dst_port ≠ 0 ∧ r.dst_port ≠ k.dst_port then false
  else if k.ip_ver = 4 then
    match_ip k.src_ip4 r.src_ip4 r.src_mask4 && match_ip k.dst_ip4 r.dst_ip4 r.dst_mask4
  else true

/-- The order induced by `rule_priority_cmp` (`rule_table.c` lines 95-108):
lower priority first, ties broken by rule id (insertion order). -/
def rule_leq (a b : rule_t) : Prop :=
  a.priority < b.priority ∨ (a.priority = b.priority ∧ a.rule_id ≤ b.rule_id)

instance : DecidableRel rule_leq := fun a b => by
  unfold rule_leq; infer_instance

instance : IsTotal rule_t rule_leq :=
  ⟨fun a b => by unfold rule_leq; omega⟩

instance : IsTrans rule_t rule_leq :=
  ⟨fun a b c hab hbc => by unfold rule_leq at *; omega⟩

instance : IsRefl rule_t rule_leq :=
  ⟨fun a => by unfold rule_leq; omega⟩

/-- The `rule_table_t` of `rule_table.h`: the live rules (array prefix of
length `count`) and the capacity. -/
structure rule_table_t where
  rules : List rule_t
  capacity : Nat
deriving DecidableEq, Repr

/-- `rule_table_init` (`rule_table.c` lines 110-119) on a positive
capacity: an empty table. -/
def rule_table_init (capacity : Nat) : rule_table_t :=
  { rules := [], capacity := capacity }

/-- The rule preparation of `rule_table_add` (`rule_table.c` lines 134-141):
assign `rule_id := count` (insertion order) and normalize IPv4 wildcard
addresses (zero mask) to zero. -/
def assign_rule (r_in : rule_t) (i : Nat) : rule_t :=
  { r_in with
     rule_id := i
     src_ip4 := if r_in.ip_ver = 4 ∧ r_in.src_mask4 = 0 then 0 else r_in.src_ip4
     dst_ip4 := if r_in.ip_ver = 4 ∧ r_in.dst_mask4 = 0 then 0 else r_in.dst_ip4 }

/-- `rule_table_add` (`rule_table.c` lines 129-149): reject when full
(the C returns `-1`; the model returns the table unchanged), assign
`rule_id := count`, normalize IPv4 wildcard addresses to zero, append, and
re-sort by `(priority, rule_id)`. -/
def rule_table_add (t : rule_table_t) (r_in : rule_t) : rule_table_t :=
  if t.capacity ≤ t.rules.length then t
  else
    { t with rules :=
        (t.rules ++ [assign_rule r_in t.rules.length]).insertionSort rule_leq }

/-- `rule_table_match` (`rule_table.c` lines 151-164): first rule of the
sorted array whose predicate holds, or none. -/
def rule_table_match (t : rule_table_t) (k : flow_key_t) : Option rule_t :=
  t.rules.find? (fun r => match_rule r k)

/-- A whole-table build: `rule_table_init` followed by `rule_table_add` for
each rule, with capacity equal to the number of rules (as the loader sizes
the table to hold them all). -/
def rule_table_build (rs : List rule_t) : rule_table_t :=
  rs.foldl rule_table_add (rule_table_init rs.length)

/-! ## SPSC ring (`src/ring.c`)

The one-producer/one-consumer bounded ring of pointers.  `head` and `tail`
are monotone counters (the C `size_t` wrap at `2^64` preserves their
difference, which is all the code uses); slot indices are reduced by
`index & mask`.  The claims concern a single producer/consumer sequence, so
the interleaving-free sequential semantics below is exact. -/

/-- The `spsc_ring_t` of `ring.h`, over an arbitrary element type standing
for the C `void *`.  `slots` always has length `capacity`. -/
structure spsc_ring_t (α : Type) where
  slots : List α
  capacity : Nat
  mask : Nat
  head : Nat
  tail : Nat
deriving DecidableEq, Repr

/-- `is_pow2` (`ring.c` line 9). -/
def is_pow2 (x : Nat) : Bool :=
  x ≠ 0 && (x &&& (x - 1)) = 0

/-- `ring_init` (`ring.c` lines 13-25): reject a non-power-of-two capacity,
else zeroed slots (`d` stands for the `calloc` null pointer) and
`head = tail = 0`. -/
def ring_init (α : Type) (capacity : Nat) (d : α) : Option (spsc_ring_t α) :=
  if is_pow2 capacity then
    some { slots := List.replicate capacity d, capacity := capacity
           mask := capacity - 1, head := 0, tail := 0 }
  else none

/-- The slot-write loop of `ring_push_burst` (`ring.c` lines 66-68):
`slots[(pos + i) & mask] = objs[i]` for each element in turn. -/
def write_slots (mask : Nat) : List α → Nat → List α → List α
  | slots, _, [] => slots
  | slots, pos, x :: xs => write_slots mask (slots.set (pos &&& mask) x) (pos + 1) xs

/-- `ring_push_burst` (`ring.c` lines 56-72): accept
`min count (capacity - (head - tail))` elements, write them at
`(head + i) & mask`, publish `head + accepted`; returns the new ring and the
accepted count. -/
def ring_push_burst (r : spsc_ring_t α) (objs : List α) : spsc_ring_t α × Nat :=
  let available := r.capacity - (r.head - r.tail)
  let n := min objs.length available
  ({ r with slots := write_slots r.mask r.slots r.head (objs.take n)
            head := r.head + n }, n)

/-- `ring_pop_burst` (`ring.c` lines 94-110): read
`min count (head - tail)` elements from `(tail + i) & mask`, publish
`tail + read`; returns the new ring and the elements read. -/
def ring_pop_burst [Inhabited α] (r : spsc_ring_t α) (count : Nat) :
    spsc_ring_t α × List α :=
  let entries := r.head - r.tail
  let n := min count entries
  ({ r with tail := r.tail + n },
   (List.range n).map fun i => r.slots.getD ((r.tail + i) &&& r.mask) default)

/-- One step of a single-producer/single-consumer usage of a ring: a burst
push of some elements or a burst pop of some count. -/
inductive ring_op (α : Type) where
  | push (objs : List α)
  | pop (count : Nat)
deriving DecidableEq, Repr

/-- A ring together with the trace of accepted pushed elements and popped
elements, for stating the FIFO property. -/
structure ring_trace (α : Type) where
  ring : spsc_ring_t α
  accepted : List α
  popped : List α
deriving DecidableEq, Repr

/-- Apply one ring operation and record the accepted/popped elements. -/
def ring_step [Inhabited α] (s : ring_trace α) : ring_op α → ring_trace α
  | .push objs =>
      let p := ring_push_burst s.ring objs
      { ring := p.1, accepted := s.accepted ++ objs.take p.2, popped := s.popped }
  | .pop count =>
      let p := ring_pop_burst s.ring count
      { ring := p.1, accepted := s.accepted, popped := s.popped ++ p.2 }

/-- Run a sequence of burst operations on a freshly initialized ring of
capacity `capacity` (slots zeroed to `d`). -/
def ring_run [Inhabited α] (capacity : Nat) (d : α) (ops : List (ring_op α)) :
    ring_trace α :=
  ops.foldl ring_step
    { ring := { slots := List.replicate capacity d, capacity := capacity
                mask := capacity - 1, head := 0, tail := 0 }
      accepted := [], popped := [] }

/-! ## Packet buffer pool (`src/pktbuf.c`)

The pool's global free stack plus the single calling thread's local cache,
for the single-threaded allocation claims.  Buffer handles (the C
`pktbuf_t *` pointers `&buffers[i]`) are modelled by their indices.  The
global stack `free_stack[0, top)` is a list whose last element is the top.
`t_cache.pool` is a flag saying whether the thread cache is bound to the
(single) pool; a fresh thread starts unbound with an empty cache, and
`flush_all_local_cache` on an unbound cache is a no-op, exactly as in the C
(`t_cache = {0}` at thread start). -/

/-- World state of `pktbuf.c` seen by one thread and one pool: the global
free stack (`free_stack[0, top)`, top at the list end), whether
`t_cache.pool` points at this pool, and the cache items (`items[0, count)`,
most recently freed at the list end). -/
structure pktbuf_world_t where
  stack : List Nat
  cache_bound : Bool
  cache : List Nat
deriving DecidableEq, Repr

/-- `pktbuf_pool_init` (`pktbuf.c` lines 194-264) with capacity `n`, as seen
by a fresh thread: `free_stack[i] = &buffers[i]` for `i < n`, `top = n`,
thread cache unbound and empty. -/
def pktbuf_pool_init (n : Nat) : pktbuf_world_t :=
  { stack := List.range n, cache_bound := false, cache := [] }

/-- The pool-switch preamble shared by `pktbuf_alloc` and `pktbuf_free`
(`pktbuf.c` lines 299-303 and 332-336): if `t_cache.pool != p`, flush the
cache to its old pool (here the cache is bound to no pool, so
`flush_all_local_cache` pushes nothing) and bind the cache, zeroing its
count. -/
def pktbuf_bind (w : pktbuf_world_t) : pktbuf_world_t :=
  if w.cache_bound then w else { w with cache_bound := true, cache := [] }

/-- `global_pop_bulk` (`pktbuf.c` lines 54-102): take
`actual = min request top` handles; the caller receives
`free_stack[top - actual, top)` in index order and `top` drops by `actual`. -/
def global_pop_bulk (stack : List Nat) (request : Nat) : List Nat × List Nat :=
  let actual := min request stack.length
  (stack.take (stack.length - actual), stack.drop (stack.length - actual))

/-- `pktbuf_alloc` (`pktbuf.c` lines 293-322): serve the last cache item;
on an empty cache refill with `BULK_TRANSFER_SIZE = 32` handles popped from
the global stack (`refill_local_cache`, lines 158-162) and retry; return
none when the global stack was empty too. -/
def pktbuf_alloc (w : pktbuf_world_t) : Option Nat × pktbuf_world_t :=
  let w := pktbuf_bind w
  if h : w.cache ≠ [] then
    (some (w.cache.getLast h), { w with cache := w.cache.dropLast })
  else
    let p := global_pop_bulk w.stack 32
    if h2 : p.2 ≠ [] then
      (some (p.2.getLast h2), { w with stack := p.1, cache := p.2.dropLast })
    else
      (none, { w with stack := p.1 })

/-- `pktbuf_free` (`pktbuf.c` lines 324-350) for a non-null buffer: append
to the cache; when the cache holds `LOCAL_CACHE_SIZE = 64` items, first
flush the last `BULK_TRANSFER_SIZE = 32` of them to the global stack
(`flush_local_cache`, lines 168-175).  (`buf->len = 0` touches the buffer
body, not the pool state.) -/
def pktbuf_free (w : pktbuf_world_t) (b : Nat) : pktbuf_world_t :=
  let w := pktbuf_bind w
  if w.cache.length < 64 then
    { w with cache := w.cache ++ [b] }
  else
    { w with stack := w.stack ++ w.cache.drop (w.cache.length - 32)
             cache := w.cache.take (w.cache.length - 32) ++ [b] }

/-- Perform `n` consecutive `pktbuf_alloc` calls, collecting the results. -/
def pktbuf_alloc_run (w : pktbuf_world_t) : Nat → List (Option Nat) × pktbuf_world_t
  | 0 => ([], w)
  | n + 1 =>
      let p := pktbuf_alloc w
      let rest := pktbuf_alloc_run p.2 n
      (p.1 :: rest.1, rest.2)

/-! ## Neighbor tables (`src/arp_table.c`, `src/ndp_table.c`)

Open-addressed IP-to-MAC maps with linear probing and no deletion.  The
reader/writer lock serializes every operation, so the sequential semantics
below is the table's behavior.  MACs are 6-byte lists; the `update_at` wall
time (`time(NULL)`) is not part of any claim and is omitted from the entry
model.  The capacity is the length of the entry list (`calloc`-zeroed at
init: `valid = false`, `ip = 0`, zero MAC). -/

/-- An `arp_entry_t` (`arp_table.h`), minus the wall-clock `update_at`. -/
structure arp_entry_t where
  ip : Nat
  mac : List Nat
  valid : Bool
deriving DecidableEq, Repr

/-- An `ndp_entry_t` (`ndp_table.h`): 16-byte IPv6 address key. -/
structure ndp_entry_t where
  ip : List Nat
  mac : List Nat
  valid : Bool
deriving DecidableEq, Repr

/-- The probe sequence `(idx + i) % capacity` for `i = 0, …, capacity - 1`
walked by the update and lookup loops of both tables. -/
def probe_seq (capacity idx : Nat) : List Nat :=
  (List.range capacity).map fun i => (idx + i) % capacity

/-- `hash_ipv6` (`ndp_table.c` lines 6-15): XOR-fold of the four 32-bit
chunks of the address, reduced modulo the capacity. -/
def hash_ipv6 (ip : List Nat) (capacity : Nat) : Nat :=
  ((List.range 4).foldl (fun h i => h ^^^ le32 ip i) 0) % capacity

/-- The probe loop of `arp_update` (`arp_table.c` lines 34-52): insert at
the first empty slot, or refresh the MAC of the slot already holding `ip`;
if the whole probe sequence is valid entries of other IPs, change nothing.
The C indexes `entries[curr]` directly; the probe positions are always below
the capacity, so the explicit bound check is always true in its uses. -/
def arp_update_go (entries : List arp_entry_t) (ip : Nat) (mac : List Nat) :
    List Nat → List arp_entry_t
  | [] => entries
  | c :: rest =>
      if hc : c < entries.length then
        if entries[c].valid = false then
          entries.set c { ip := ip, mac := mac, valid := true }
        else if entries[c].ip = ip then
          entries.set c { entries[c] with mac := mac }
        else arp_update_go entries ip mac rest
      else entries

/-- `arp_update` (`arp_table.c` lines 27-54). -/
def arp_update (entries : List arp_entry_t) (ip : Nat) (mac : List Nat) :
    List arp_entry_t :=
  arp_update_go entries ip mac (probe_seq entries.length (ip % entries.length))

/-- The probe loop of `arp_get_mac` (`arp_table.c` lines 62-77): return the
MAC of a valid entry holding `ip`; stop with a miss at the first empty slot
(no tombstones) or after a full probe sequence. -/
def arp_get_go (entries : List arp_entry_t) (ip : Nat) :
    List Nat → Option (List Nat)
  | [] => none
  | c :: rest =>
      if hc : c < entries.length then
        if entries[c].valid = true ∧ entries[c].ip = ip then some entries[c].mac
        else if entries[c].valid = false then none
        else arp_get_go entries ip rest
      else none

/-- `arp_get_mac` (`arp_table.c` lines 56-81). -/
def arp_get_mac (entries : List arp_entry_t) (ip : Nat) : Option (List Nat) :=
  arp_get_go entries ip (probe_seq entries.length (ip % entries.length))

/-- The probe loop of `ndp_update` (`ndp_table.c` lines 43-61), with
`memcmp(entry.ip, ip, 16) == 0` modelled as list equality. -/
def ndp_update_go (entries : List ndp_entry_t) (ip mac : List Nat) :
    List Nat → List ndp_entry_t
  | [] => entries
  | c :: rest =>
      if hc : c < entries.length then
        if entries[c].valid = false then
          entries.set c { ip := ip, mac := mac, valid := true }
        else if entries[c].ip = ip then
          entries.set c { entries[c] with mac := mac }
        else ndp_update_go entries ip mac rest
      else entries

/-- `ndp_update` (`ndp_table.c` lines 37-63). -/
def ndp_update (entries : List ndp_entry_t) (ip mac : List Nat) :
    List ndp_entry_t :=
  ndp_update_go entries ip mac (probe_seq entries.length (hash_ipv6 ip entries.length))

/-- The probe loop of `ndp_get_mac` (`ndp_table.c` lines 71-81). -/
def ndp_get_go (entries : List ndp_entry_t) (ip : List Nat) :
    List Nat → Option (List Nat)
  | [] => none
  | c :: rest =>
      if hc : c < entries.length then
        if entries[c].valid = true ∧ entries[c].ip = ip then some entries[c].mac
        else if entries[c].valid = false then none
        else ndp_get_go entries ip rest
      else none

/-- `ndp_get_mac` (`ndp_table.c` lines 65-84). -/
def ndp_get_mac (entries : List ndp_entry_t) (ip : List Nat) : Option (List Nat) :=
  ndp_get_go entries ip (probe_seq entries.length (hash_ipv6 ip entries.length))

/-- `arp_table_init` (`arp_table.c` lines 8-17): `calloc`-zeroed entries. -/
def arp_table_init (capacity : Nat) : List arp_entry_t :=
  List.replicate capacity { ip := 0, mac := List.replicate 6 0, valid := false }

/-- `ndp_table_init` (`ndp_table.c` lines 17-26): `calloc`-zeroed entries. -/
def ndp_table_init (capacity : Nat) : List ndp_entry_t :=
  List.replicate capacity
    { ip := List.replicate 16 0, mac := List.replicate 6 0, valid := false }

/-! ## Claim theorems, helper lemmas and witnesses -/

theorem xor_left_comm' (a b c : Nat) : a ^^^ (b ^^^ c) = b ^^^ (a ^^^ c) := by
  rw [← Nat.xor_assoc, Nat.xor_comm a b, Nat.xor_assoc]

/-- C4: flow_hash is invariant under swapping the (src_ip, src_port) and
(dst_ip, dst_port) endpoints, for IPv4 and IPv6 keys alike. -/
theorem C4_flow_hash_symmetric (k : flow_key_t) :
    flow_hash (swap_endpoints k) = flow_hash k := by
  have h4 : List.range 4 = [0, 1, 2, 3] := by decide
  simp only [flow_hash, swap_endpoints, h4, List.foldl]
  split_ifs <;> simp [Nat.xor_assoc, Nat.xor_comm, xor_left_comm']

/-- An IPv6 rule for source prefix 2001:db8::9/128 (full-length mask),
everything else wildcarded, as the INI loader builds via
`ipv6_mask_from_prefix(128)`. -/
def c1_rule : rule_t :=
  { priority := 10, ip_ver := 6
    src_ip4 := 0, src_mask4 := 0, dst_ip4 := 0, dst_mask4 := 0
    src_ip6 := [0x20, 0x01, 0x0d, 0xb8, 0, 0, 0, 0, 0, 0, 0, 0, 0, 0, 0, 9]
    src_mask6 := List.replicate 16 0xff
    dst_ip6 := List.replicate 16 0, dst_mask6 := List.replicate 16 0
    src_port := 0, dst_port := 0, protocol := 0
    action := { action_ty := 0, out_ifindex := 0 }, rule_id := 0 }

/-- An IPv6 flow key whose source address 2001:db8::1 does not match the
rule's masked source 2001:db8::9/128. -/
def c1_key : flow_key_t :=
  { ip_ver := 6, src_ip4 := 0, dst_ip4 := 0
    src_ip6 := [0x20, 0x01, 0x0d, 0xb8, 0, 0, 0, 0, 0, 0, 0, 0, 0, 0, 0, 1]
    dst_ip6 := List.replicate 16 0
    src_port := 0, dst_port := 0, protocol := 0 }

/-- C1: the claim fails on the code for IPv6.  `match_rule` accepts a key
whose masked IPv6 source address differs from the rule's (the bytewise
comparison `match_ipv6`, defined in the same file for this purpose, is
never called: the `ip_ver == 6` branch is an empty TODO), contradicting the
spec predicate `(key.src_ip & rule.src_mask) == (rule.src_ip & rule.src_mask)`
for IPv6. -/
theorem C1_ipv6_mask_ignored :
    match_rule c1_rule c1_key = true ∧
    match_ipv6 c1_key.src_ip6 c1_rule.src_ip6 c1_rule.src_mask6 = false ∧
    (match_ip c1_key.src_ip4 c1_rule.src_ip4 c1_rule.src_mask4 = true ∧
      match_rule c1_rule c1_key = true → c1_key.ip_ver = 6) := by
  decide

theorem fold16_lt (x : Nat) : fold16 x < 65536 := by
  induction x using fold16.induct with
  | case1 x h => rw [fold16]; simp [h]
  | case2 x h ih => rw [fold16]; simpa [h] using ih

theorem fold16_mod (x : Nat) : fold16 x % 65535 = x % 65535 := by
  induction x using fold16.induct with
  | case1 x h => rw [fold16]; simp [h]
  | case2 x h ih => rw [fold16]; simp only [h, dite_false]; rw [ih]; omega

theorem fold16_pos (x : Nat) (hx : 0 < x) : 0 < fold16 x := by
  induction x using fold16.induct with
  | case1 x h => rw [fold16]; simpa [h]
  | case2 x h ih => rw [fold16]; simp only [h, dite_false]; exact ih (by omega)

theorem sum16_append (a b : List Nat) (ha : a.length % 2 = 0) :
    sum16 (a ++ b) = sum16 a + sum16 b := by
  induction a using sum16.induct with
  | case1 => simp [sum16]
  | case2 x => simp at ha
  | case3 x y rest ih =>
      simp only [List.cons_append, sum16, List.append_eq]
      rw [ih (by simp at ha; omega)]
      omega

/-- The heart of the checksum analysis: with `W` the 16-bit-word sum of the
header with a zeroed checksum field, installing the value `c'` in the
checksum field verifies to zero exactly when `c'` is the computed checksum
`65535 - fold16 W`, or when that computed checksum is `0` and `c' = 65535`
(both are one's-complement representations of zero modulo `65535`). -/
theorem fold16_install_iff (W c' : Nat) (hc : c' ≤ 65535) :
    65535 - fold16 (W + c') = 0 ↔
      (c' = 65535 - fold16 W ∨ (65535 - fold16 W = 0 ∧ c' = 65535)) := by
  have h1 : fold16 W < 65536 := fold16_lt W
  have h2 : fold16 W % 65535 = W % 65535 := fold16_mod W
  have h3 : 0 < W → 0 < fold16 W := fold16_pos W
  have h4 : W = 0 → fold16 W = 0 := by rintro rfl; rw [fold16]; simp
  have g1 : fold16 (W + c') < 65536 := fold16_lt _
  have g2 : fold16 (W + c') % 65535 = (W + c') % 65535 := fold16_mod _
  have g3 : 0 < W + c' → 0 < fold16 (W + c') := fold16_pos _
  have g4 : W + c' = 0 → fold16 (W + c') = 0 := by
    intro h0; rw [h0, fold16]; simp
  omega

/-- First 10 bytes (up to the checksum field) of the S7 test header:
`45 00 00 14 00 00 00 00 40 06` (TTL 64, protocol TCP). -/
def c9_pre : List Nat := [0x45, 0x00, 0x00, 0x14, 0x00, 0x00, 0x00, 0x00, 0x40, 0x06]

/-- Bytes after the checksum field of the S7 test header: the addresses
`10.0.0.1` and `10.0.0.2`. -/
def c9_rest : List Nat := [0x0A, 0x00, 0x00, 0x01, 0x0A, 0x00, 0x00, 0x02]

/-- C9 (amended): for any IPv4 header (10 pre-checksum bytes, a little-endian
checksum field, any remaining bytes), installing the checksum computed over
the zero-field header verifies to 0; and an installed value `c'` verifies to
0 exactly when `c'` is that computed checksum, or the computed checksum is 0
and `c' = 65535` (the two one's-complement zeros). -/
theorem C9_checksum_install (pre rest : List Nat) (c' : Nat)
    (hpre : pre.length = 10) (hc : c' ≤ 65535) :
    ipv4_checksum (pre ++ [ipv4_checksum (pre ++ [0, 0] ++ rest) % 256,
        ipv4_checksum (pre ++ [0, 0] ++ rest) / 256] ++ rest) = 0 ∧
    (ipv4_checksum (pre ++ [c' % 256, c' / 256] ++ rest) = 0 ↔
      (c' = ipv4_checksum (pre ++ [0, 0] ++ rest) ∨
        (ipv4_checksum (pre ++ [0, 0] ++ rest) = 0 ∧ c' = 65535))) := by
  have hW : ∀ a b : Nat, ipv4_checksum (pre ++ [a, b] ++ rest)
      = 65535 - fold16 (sum16 pre + sum16 rest + (a + 256 * b)) := by
    intro a b
    unfold ipv4_checksum
    have hs1 : sum16 (pre ++ [a, b] ++ rest) = sum16 (pre ++ [a, b]) + sum16 rest :=
      sum16_append _ _ (by simp [hpre])
    have hs2 : sum16 (pre ++ [a, b]) = sum16 pre + sum16 [a, b] :=
      sum16_append _ _ (by omega)
    rw [hs1, hs2]
    simp only [sum16]
    congr 2
    omega
  have hc0 : ipv4_checksum (pre ++ [0, 0] ++ rest)
      = 65535 - fold16 (sum16 pre + sum16 rest) := by
    rw [hW 0 0]
    norm_num
  constructor
  · rw [hc0, hW]
    rw [Nat.mod_add_div (65535 - fold16 (sum16 pre + sum16 rest)) 256]
    exact (fold16_install_iff _ _ (by omega)).mpr (Or.inl rfl)
  · rw [hc0, hW]
    rw [Nat.mod_add_div c' 256]
    exact fold16_install_iff _ c' hc

/-- C9 witness: the amended theorem applied to the S7 header with `c' = 0`. -/
theorem C9_checksum_install_witness :
    ipv4_checksum (c9_pre ++ [ipv4_checksum (c9_pre ++ [0, 0] ++ c9_rest) % 256,
        ipv4_checksum (c9_pre ++ [0, 0] ++ c9_rest) / 256] ++ c9_rest) = 0 ∧
    (ipv4_checksum (c9_pre ++ [0 % 256, 0 / 256] ++ c9_rest) = 0 ↔
      (0 = ipv4_checksum (c9_pre ++ [0, 0] ++ c9_rest) ∨
        (ipv4_checksum (c9_pre ++ [0, 0] ++ c9_rest) = 0 ∧ 0 = 65535))) :=
  C9_checksum_install c9_pre c9_rest 0 (by decide) (by decide)

/-- A 20-byte header (zero checksum field) whose word sum is `0xFFFF`, so
the computed checksum is `0`. -/
def c9_hdr_zero : List Nat :=
  [255, 255, 0, 0, 0, 0, 0, 0, 0, 0, 0, 0, 0, 0, 0, 0, 0, 0, 0, 0]

/-- The same header with `0xFFFF` installed in the checksum field. -/
def c9_hdr_ffff : List Nat :=
  [255, 255, 0, 0, 0, 0, 0, 0, 0, 0, 255, 255, 0, 0, 0, 0, 0, 0, 0, 0]

/-- C9 counterexample: the checksum computed for `c9_hdr_zero` is `0`, yet
installing the different value `0xFFFF` also re-sums to `0`; verification
does not succeed only for the computed checksum value. -/
theorem C9_checksum_not_unique :
    ipv4_checksum c9_hdr_zero = 0 ∧
    ipv4_checksum c9_hdr_ffff = 0 ∧
    (65535 : Nat) ≠ ipv4_checksum c9_hdr_zero := by
  have e1 : fold16 65535 = 65535 := by
    rw [fold16]
    norm_num
  have e2 : fold16 131070 = 65535 := by
    rw [fold16]
    norm_num [e1]
  have s1 : sum16 c9_hdr_zero = 65535 := by norm_num [c9_hdr_zero, sum16]
  have s2 : sum16 c9_hdr_ffff = 131070 := by norm_num [c9_hdr_ffff, sum16]
  refine ⟨?_, ?_, ?_⟩
  · rw [ipv4_checksum, s1, e1]
  · rw [ipv4_checksum, s2, e2]
  · rw [ipv4_checksum, s1, e1]
    omega

/-- Bridge between the total observer `getD` used in claim statements and
the bounds-guarded reads of the parser model. -/
theorem getD_eq (l : List Nat) (i : Nat) (h : i < l.length) : l.getD i 0 = l[i] :=
  List.getD_eq_getElem l 0 h

theorem parseL3_not_oob (pkt : List Nat) : parseL3 pkt ≠ .oob := by
  simp only [parseL3]
  split_ifs <;> simp_all <;> omega

theorem parseL4_not_oob (pkt : List Nat) (info : l3_info_t) :
    parseL4 pkt info ≠ .oob := by
  simp only [parseL4]
  split_ifs <;> simp_all <;> omega

theorem parse_not_oob (pkt : List Nat) : parse_flow_key pkt ≠ .oob := by
  unfold parse_flow_key
  cases h : parseL3 pkt with
  | ok info => exact parseL4_not_oob pkt info
  | reject => simp
  | oob => exact absurd h (parseL3_not_oob pkt)

theorem parseL3_reject_short (pkt : List Nat) (h : pkt.length < 14) :
    parse_flow_key pkt = .reject := by
  unfold parse_flow_key parseL3
  rw [dif_pos h]

theorem parseL3_reject_v4_short (pkt : List Nat) (h14 : 14 ≤ pkt.length)
    (het : pkt.getD 12 0 * 256 + pkt.getD 13 0 = 0x0800)
    (hshort : pkt.length - 14 < 20) :
    parse_flow_key pkt = .reject := by
  rw [getD_eq pkt 12 (by omega), getD_eq pkt 13 (by omega)] at het
  unfold parse_flow_key
  simp only [parseL3]
  split_ifs <;> first | rfl | omega

theorem parseL3_reject_v4_version (pkt : List Nat) (h34 : 34 ≤ pkt.length)
    (het : pkt.getD 12 0 * 256 + pkt.getD 13 0 = 0x0800)
    (hver : pkt.getD 14 0 / 16 ≠ 4) :
    parse_flow_key pkt = .reject := by
  rw [getD_eq pkt 12 (by omega), getD_eq pkt 13 (by omega)] at het
  rw [getD_eq pkt 14 (by omega)] at hver
  unfold parse_flow_key
  simp only [parseL3]
  split_ifs <;> first | rfl | omega

theorem parseL3_reject_v4_ihl (pkt : List Nat) (h34 : 34 ≤ pkt.length)
    (het : pkt.getD 12 0 * 256 + pkt.getD 13 0 = 0x0800)
    (hihl : (pkt.getD 14 0 % 16) * 4 < 20 ∨ pkt.length - 14 < (pkt.getD 14 0 % 16) * 4) :
    parse_flow_key pkt = .reject := by
  rw [getD_eq pkt 12 (by omega), getD_eq pkt 13 (by omega)] at het
  rw [getD_eq pkt 14 (by omega)] at hihl
  unfold parse_flow_key
  simp only [parseL3]
  split_ifs <;> first | rfl | omega

theorem parseL3_reject_v6_short (pkt : List Nat) (h14 : 14 ≤ pkt.length)
    (het : pkt.getD 12 0 * 256 + pkt.getD 13 0 = 0x86DD)
    (hshort : pkt.length - 14 < 40) :
    parse_flow_key pkt = .reject := by
  rw [getD_eq pkt 12 (by omega), getD_eq pkt 13 (by omega)] at het
  unfold parse_flow_key
  simp only [parseL3]
  split_ifs <;> first | rfl | omega

theorem parseL4_reject_udp_short (pkt : List Nat) (info : l3_info_t)
    (hL3 : parseL3 pkt = .ok info) (hp : info.key.protocol = 17)
    (hshort : pkt.length - info.l4_off < 8) :
    parse_flow_key pkt = .reject := by
  unfold parse_flow_key
  rw [hL3]
  simp only [parseL4]
  split_ifs <;> first | rfl | omega

theorem parseL4_reject_tcp_short (pkt : List Nat) (info : l3_info_t)
    (hL3 : parseL3 pkt = .ok info) (hp : info.key.protocol = 6)
    (hshort : pkt.length - info.l4_off < 20) :
    parse_flow_key pkt = .reject := by
  unfold parse_flow_key
  rw [hL3]
  simp only [parseL4]
  split_ifs <;> first | rfl | omega

theorem parseL4_reject_tcp_offset (pkt : List Nat) (info : l3_info_t)
    (hL3 : parseL3 pkt = .ok info) (hp : info.key.protocol = 6)
    (h20 : 20 ≤ pkt.length - info.l4_off)
    (hoff : (pkt.getD (info.l4_off + 12) 0 / 16) * 4 < 20 ∨
      pkt.length - info.l4_off < (pkt.getD (info.l4_off + 12) 0 / 16) * 4) :
    parse_flow_key pkt = .reject := by
  rw [getD_eq pkt (info.l4_off + 12) (by omega)] at hoff
  unfold parse_flow_key
  rw [hL3]
  simp only [parseL4]
  split_ifs <;> first | rfl | omega

theorem parseL4_reject_icmp_short (pkt : List Nat) (info : l3_info_t)
    (hL3 : parseL3 pkt = .ok info) (hp : info.key.protocol = 1)
    (hshort : pkt.length - info.l4_off < 8) :
    parse_flow_key pkt = .reject := by
  unfold parse_flow_key
  rw [hL3]
  simp only [parseL4]
  split_ifs <;> first | rfl | omega

/-- C6: parser soundness.  `parse_flow_key` rejects every input shorter than
the minimal header at any layer (Ethernet 14, IPv4 20, IPv6 40, UDP 8,
TCP 20, ICMP 8 bytes), every IPv4 frame whose version nibble is not 4 or
whose IHL is below 20 bytes or beyond the remaining length, and every TCP
segment whose data offset is below 20 bytes or beyond the remaining length;
and it never reads outside the given slice (it never returns `oob`, every
modelled read being bounds-guarded). -/
theorem C6_parse_soundness (pkt : List Nat) :
    (pkt.length < 14 → parse_flow_key pkt = .reject) ∧
    (14 ≤ pkt.length → pkt.getD 12 0 * 256 + pkt.getD 13 0 = 0x0800 →
      pkt.length - 14 < 20 → parse_flow_key pkt = .reject) ∧
    (34 ≤ pkt.length → pkt.getD 12 0 * 256 + pkt.getD 13 0 = 0x0800 →
      pkt.getD 14 0 / 16 ≠ 4 → parse_flow_key pkt = .reject) ∧
    (34 ≤ pkt.length → pkt.getD 12 0 * 256 + pkt.getD 13 0 = 0x0800 →
      ((pkt.getD 14 0 % 16) * 4 < 20 ∨ pkt.length - 14 < (pkt.getD 14 0 % 16) * 4) →
      parse_flow_key pkt = .reject) ∧
    (14 ≤ pkt.length → pkt.getD 12 0 * 256 + pkt.getD 13 0 = 0x86DD →
      pkt.length - 14 < 40 → parse_flow_key pkt = .reject) ∧
    (∀ info : l3_info_t, parseL3 pkt = .ok info →
      (info.key.protocol = 17 → pkt.length - info.l4_off < 8 →
        parse_flow_key pkt = .reject) ∧
      (info.key.protocol = 6 → pkt.length - info.l4_off < 20 →
        parse_flow_key pkt = .reject) ∧
      (info.key.protocol = 6 → 20 ≤ pkt.length - info.l4_off →
        ((pkt.getD (info.l4_off + 12) 0 / 16) * 4 < 20 ∨
          pkt.length - info.l4_off < (pkt.getD (info.l4_off + 12) 0 / 16) * 4) →
        parse_flow_key pkt = .reject) ∧
      (info.key.protocol = 1 → pkt.length - info.l4_off < 8 →
        parse_flow_key pkt = .reject)) ∧
    parse_flow_key pkt ≠ .oob := by
  refine ⟨parseL3_reject_short pkt, parseL3_reject_v4_short pkt,
    parseL3_reject_v4_version pkt, parseL3_reject_v4_ihl pkt,
    parseL3_reject_v6_short pkt, ?_, parse_not_oob pkt⟩
  intro info hL3
  exact ⟨parseL4_reject_udp_short pkt info hL3,
    parseL4_reject_tcp_short pkt info hL3,
    fun hp h20 hoff => parseL4_reject_tcp_offset pkt info hL3 hp h20 hoff,
    parseL4_reject_icmp_short pkt info hL3⟩

/-- C6 witness: a 12-byte frame is below the Ethernet minimum and is
rejected; a 17-byte IPv4 frame is below the IPv4 minimum and is rejected. -/
theorem C6_parse_soundness_witness :
    ((List.replicate 12 0 : List Nat).length < 14 ∧
      parse_flow_key (List.replicate 12 0) = .reject) ∧
    (parse_flow_key ([0, 0, 0, 0, 0, 0, 0, 0, 0, 0, 0, 0, 8, 0, 0x45, 0, 0]) = .reject) :=
  ⟨⟨by decide, (C6_parse_soundness _).1 (by decide)⟩,
    (C6_parse_soundness _).2.1 (by decide) (by decide) (by decide)⟩

/-- A 62-byte IPv6 frame carrying an 8-byte ICMPv6 echo request
(next_header 58, type 128, identifier 0x1234). -/
def c3_pkt : List Nat :=
  [0, 0, 0, 0, 0, 0, 0, 0, 0, 0, 0, 0, 0x86, 0xDD,
   0x60, 0, 0, 0, 0, 8, 58, 64] ++
  List.replicate 15 0 ++ [1] ++ List.replicate 15 0 ++ [2] ++
  [128, 0, 0, 0, 0x12, 0x34, 0, 0]

/-- The L3 result for `c3_pkt`: an IPv6 key with protocol 58 and 8 bytes of
L4 data remaining. -/
def c3_info : l3_info_t :=
  { key := { flow_key_t.zero with
              ip_ver := 6
              src_ip6 := List.replicate 15 0 ++ [1]
              dst_ip6 := List.replicate 15 0 ++ [2]
              protocol := 58 }
    l4_off := 54 }

/-- C3 counterexample: `c3_pkt` passes the L3 parse with protocol 58 and 8
bytes of L4 data remaining, yet `parse_flow_key` rejects it - the L4
dispatch has no branch for 58, contrary to the claim. -/
theorem C3_icmpv6_rejected :
    parseL3 c3_pkt = .ok c3_info ∧ c3_info.key.protocol = 58 ∧
    8 ≤ c3_pkt.length - c3_info.l4_off ∧
    parse_flow_key c3_pkt = .reject := by
  refine ⟨by decide, by decide, by decide, ?_⟩
  unfold parse_flow_key
  decide

set_option maxRecDepth 8192 in
/-- C3 (amended): for every frame that passes the L3 parse with protocol 1
(ICMP) and at least 8 bytes of L4 data remaining, `parse_flow_key` succeeds,
setting `src_port` to the ICMP identifier in host order and `dst_port` to
`(type <<< 8) ||| code`; a frame whose L3 protocol is 58 (ICMPv6) is instead
rejected - the C L4 dispatch has no branch for 58. -/
theorem C3_icmp_parse (pkt : List Nat) (info : l3_info_t)
    (hL3 : parseL3 pkt = .ok info) :
    (info.key.protocol = 1 → 8 ≤ pkt.length - info.l4_off →
      parse_flow_key pkt = .ok { info.key with
        src_port := pkt.getD (info.l4_off + 4) 0 * 256 + pkt.getD (info.l4_off + 5) 0
        dst_port := (pkt.getD info.l4_off 0 <<< 8) ||| pkt.getD (info.l4_off + 1) 0 }) ∧
    (info.key.protocol = 58 → parse_flow_key pkt = .reject) := by
  constructor
  · intro hp hlen
    rw [getD_eq pkt (info.l4_off + 4) (by omega), getD_eq pkt (info.l4_off + 5) (by omega),
      getD_eq pkt info.l4_off (by omega), getD_eq pkt (info.l4_off + 1) (by omega)]
    unfold parse_flow_key
    rw [hL3]
    simp only [parseL4]
    split_ifs <;> first | rfl | omega
  · intro hp
    unfold parse_flow_key
    rw [hL3]
    simp only [parseL4]
    split_ifs <;> first | rfl | omega

/-- A 42-byte IPv4 ICMP echo-request frame: protocol 1, type 8, code 0,
identifier 0x1234 (the S4 scenario). -/
def c3_pkt4 : List Nat :=
  [0, 0, 0, 0, 0, 0, 0, 0, 0, 0, 0, 0, 0x08, 0x00,
   0x45, 0, 0, 28, 0, 0, 0, 0, 64, 1, 0, 0,
   10, 0, 0, 1, 10, 0, 0, 2,
   8, 0, 0, 0, 0x12, 0x34, 0, 0]

/-- The L3 result for `c3_pkt4`. -/
def c3_info4 : l3_info_t :=
  { key := { flow_key_t.zero with
              ip_ver := 4, src_ip4 := 0x0A000001, dst_ip4 := 0x0A000002
              protocol := 1 }
    l4_off := 34 }

/-- C3 witness: the amended theorem applied to the S4 frame yields
`src_port = 0x1234` and `dst_port = 0x0800`. -/
theorem C3_icmp_parse_witness :
    parseL3 c3_pkt4 = .ok c3_info4 ∧
    parse_flow_key c3_pkt4 = .ok { c3_info4.key with
      src_port := 0x1234, dst_port := 0x0800 } := by
  refine ⟨by decide, ?_⟩
  have h := (C3_icmp_parse c3_pkt4 c3_info4 (by decide)).1 (by decide) (by decide)
  rw [h]
  decide

/-- `assign_rule` applied along a list, with ids starting at `n`: the rules
a sequence of successful `rule_table_add` calls stores. -/
def assign_from (n : Nat) : List rule_t → List rule_t
  | [] => []
  | r :: rest => assign_rule r n :: assign_from (n + 1) rest

theorem assign_from_ids (rs : List rule_t) (n : Nat) :
    (assign_from n rs).map (fun r => r.rule_id) = List.range' n rs.length := by
  induction rs generalizing n with
  | nil => simp [assign_from]
  | cons r rest ih => simp [assign_from, assign_rule, List.range', ih]

theorem rule_table_add_sorted (t : rule_table_t) (r : rule_t)
    (h : t.rules.Sorted rule_leq) : (rule_table_add t r).rules.Sorted rule_leq := by
  unfold rule_table_add
  split_ifs
  · exact h
  · exact List.sorted_insertionSort rule_leq _

theorem rule_table_build_invariant (rs : List rule_t) (t : rule_table_t)
    (hcap : t.rules.length + rs.length ≤ t.capacity) :
    (rs.foldl rule_table_add t).rules.Perm (t.rules ++ assign_from t.rules.length rs) ∧
    (rs.foldl rule_table_add t).capacity = t.capacity := by
  induction rs generalizing t with
  | nil => simp [assign_from]
  | cons r rest ih =>
      simp only [List.foldl_cons]
      have hlt : t.rules.length < t.capacity := by simp at hcap; omega
      have hadd : (rule_table_add t r).rules.Perm
          (t.rules ++ [assign_rule r t.rules.length]) := by
        unfold rule_table_add
        rw [if_neg (by omega)]
        exact List.perm_insertionSort rule_leq _
      have hcapadd : (rule_table_add t r).capacity = t.capacity := by
        unfold rule_table_add
        split_ifs <;> rfl
      have hlen : (rule_table_add t r).rules.length = t.rules.length + 1 := by
        rw [hadd.length_eq]
        simp
      obtain ⟨ihp, ihc⟩ := ih (rule_table_add t r)
        (by rw [hlen, hcapadd]; simp at hcap ⊢; omega)
      refine ⟨ihp.trans ?_, by rw [ihc, hcapadd]⟩
      rw [hlen]
      have heq : (t.rules ++ [assign_rule r t.rules.length]) ++
          assign_from (t.rules.length + 1) rest
          = t.rules ++ assign_from t.rules.length (r :: rest) := by
        simp [assign_from, List.append_assoc]
      refine (hadd.append_right _).trans ?_
      rw [heq]

theorem rule_table_build_sorted (rs : List rule_t) :
    (rule_table_build rs).rules.Sorted rule_leq := by
  unfold rule_table_build
  generalize hgen : rule_table_init rs.length = t0
  have h0 : t0.rules.Sorted rule_leq := by
    rw [← hgen]; simp [rule_table_init]
  clear hgen
  induction rs generalizing t0 with
  | nil => exact h0
  | cons r rest ih => exact ih _ (rule_table_add_sorted _ _ h0)

theorem find?_min (l : List rule_t) (k : flow_key_t) (r : rule_t)
    (hs : l.Sorted rule_leq) (hf : l.find? (fun r => match_rule r k) = some r) :
    match_rule r k = true ∧ r ∈ l ∧
      ∀ r' ∈ l, match_rule r' k = true → rule_leq r r' := by
  induction l with
  | nil => simp at hf
  | cons x xs ih =>
      rw [List.sorted_cons] at hs
      rw [List.find?_cons] at hf
      cases hpx : match_rule x k with
      | true =>
          rw [hpx] at hf
          simp at hf
          subst hf
          refine ⟨hpx, List.mem_cons_self x xs, ?_⟩
          intro r' hr' _
          rcases List.mem_cons.mp hr' with h | h
          · subst h; exact IsRefl.refl (r := rule_leq) r'
          · exact hs.1 r' h
      | false =>
          rw [hpx] at hf
          simp at hf
          obtain ⟨h1, h2, h3⟩ := ih hs.2 hf
          refine ⟨h1, List.mem_cons_of_mem x h2, ?_⟩
          intro r' hr' hm
          rcases List.mem_cons.mp hr' with h | h
          · subst h; rw [hpx] at hm; simp at hm
          · exact h3 r' h hm

/-- The three rules of seed test S2, added with priorities 100, 10, 66. -/
def c2_rule (p : Nat) : rule_t :=
  { priority := p, ip_ver := 0
    src_ip4 := 0, src_mask4 := 0, dst_ip4 := 0, dst_mask4 := 0
    src_ip6 := List.replicate 16 0, src_mask6 := List.replicate 16 0
    dst_ip6 := List.replicate 16 0, dst_mask6 := List.replicate 16 0
    src_port := 0, dst_port := 0, protocol := 0
    action := { action_ty := 0, out_ifindex := 0 }, rule_id := 0 }

def c2_example_rules : List rule_t := [c2_rule 100, c2_rule 10, c2_rule 66]

/-- C2: a table built by `rule_table_add` calls holds the added rules with
`rule_id` equal to insertion order, kept sorted by `(priority, rule_id)`;
`rule_table_match` returns a rule that matches and is `(priority, rule_id)`-
minimal among all matching rules, and returns none exactly when no rule
matches; rules of equal priority are tried in insertion order, and adding
priorities 100, 10, 66 yields the sorted order 10, 66, 100. -/
theorem C2_rule_match_lowest (rs : List rule_t) (k : flow_key_t) :
    ((rule_table_build rs).rules.map (fun r => r.rule_id)).Perm
        (List.range rs.length) ∧
    (rule_table_build rs).rules.Sorted rule_leq ∧
    (∀ r, rule_table_match (rule_table_build rs) k = some r →
      match_rule r k = true ∧ r ∈ (rule_table_build rs).rules ∧
        ∀ r' ∈ (rule_table_build rs).rules, match_rule r' k = true → rule_leq r r') ∧
    (rule_table_match (rule_table_build rs) k = none ↔
      ∀ r ∈ (rule_table_build rs).rules, match_rule r k = false) ∧
    ((rule_table_build c2_example_rules).rules.map (fun r => (r.priority, r.rule_id)))
      = [(10, 1), (66, 2), (100, 0)] := by
  have hperm : (rule_table_build rs).rules.Perm (assign_from 0 rs) := by
    have h := (rule_table_build_invariant rs (rule_table_init rs.length)
      (by simp [rule_table_init])).1
    simpa [rule_table_build, rule_table_init] using h
  have hsorted := rule_table_build_sorted rs
  refine ⟨?_, hsorted, ?_, ?_, by decide⟩
  · have := hperm.map (fun r => r.rule_id)
    rw [assign_from_ids rs 0] at this
    rwa [List.range_eq_range']
  · intro r hr
    exact find?_min _ k r hsorted hr
  · constructor
    · intro hn r hr
      have := List.find?_eq_none.mp hn r hr
      simpa using this
    · intro hall
      unfold rule_table_match
      rw [List.find?_eq_none]
      intro r hr
      simp [hall r hr]

/-- C2 witness: on the S2 example table and the all-zero key, `match`
returns the priority-10 rule (rule id 1, the second inserted), which
matches and is minimal. -/
theorem C2_rule_match_lowest_witness :
    rule_table_match (rule_table_build c2_example_rules) flow_key_t.zero
      = some { c2_rule 10 with rule_id := 1 } ∧
    match_rule { c2_rule 10 with rule_id := 1 } flow_key_t.zero = true ∧
    { c2_rule 10 with rule_id := 1 } ∈ (rule_table_build c2_example_rules).rules :=
  ⟨by decide,
   ((C2_rule_match_lowest c2_example_rules flow_key_t.zero).2.2.1 _ (by decide)).1,
   ((C2_rule_match_lowest c2_example_rules flow_key_t.zero).2.2.1 _ (by decide)).2.1⟩

theorem probe_seq_nodup (cap idx : Nat) : (probe_seq cap idx).Nodup := by
  refine (List.nodup_range cap).map_on ?_
  intro i hi j hj hij
  rw [List.mem_range] at hi hj
  have h2 : i % cap = j % cap := Nat.ModEq.add_left_cancel' idx hij
  rwa [Nat.mod_eq_of_lt hi, Nat.mod_eq_of_lt hj] at h2

theorem probe_seq_bound (cap idx c : Nat) (hc : c ∈ probe_seq cap idx) : c < cap := by
  simp only [probe_seq, List.mem_map, List.mem_range] at hc
  obtain ⟨i, hi, rfl⟩ := hc
  exact Nat.mod_lt _ (by omega)

theorem probe_seq_mem (cap idx j : Nat) (hj : j < cap) : j ∈ probe_seq cap idx := by
  have hc : 0 < cap := by omega
  have hd : idx % cap < cap := Nat.mod_lt _ hc
  have hle : idx % cap ≤ idx := Nat.mod_le idx cap
  refine List.mem_map.mpr
    ⟨(cap + j - idx % cap) % cap, List.mem_range.mpr (Nat.mod_lt _ hc), ?_⟩
  rw [Nat.add_mod_mod]
  have harr : idx + (cap + j - idx % cap) = (idx - idx % cap) + (cap + j) := by omega
  rw [harr]
  have hsub : idx - idx % cap = cap * (idx / cap) := by
    have := Nat.mod_add_div idx cap
    omega
  rw [hsub, Nat.add_comm (cap * (idx / cap)) (cap + j), Nat.add_mul_mod_self_left,
    Nat.add_comm cap j, Nat.add_mod_right]
  exact Nat.mod_eq_of_lt hj

theorem arp_update_go_outside (entries : List arp_entry_t) (ip : Nat) (mac : List Nat)
    (positions : List Nat) (c : Nat) (hc : c ∉ positions) (hcl : c < entries.length) :
    (arp_update_go entries ip mac positions).length = entries.length ∧
    ∀ hlen : c < (arp_update_go entries ip mac positions).length,
      (arp_update_go entries ip mac positions)[c] = entries[c] := by
  induction positions with
  | nil => exact ⟨rfl, fun _ => rfl⟩
  | cons c' rest ih =>
      have hne : c' ≠ c := fun h => hc (h ▸ List.mem_cons_self c' rest)
      have hrest : c ∉ rest := fun h => hc (List.mem_cons_of_mem c' h)
      unfold arp_update_go
      split_ifs with h1 h2 h3
      · exact ⟨by simp, fun hlen => List.getElem_set_ne hne hlen⟩
      · exact ⟨by simp, fun hlen => List.getElem_set_ne hne hlen⟩
      · exact ih hrest
      · exact ⟨rfl, fun _ => rfl⟩

theorem arp_go_update_get (entries : List arp_entry_t) (ip : Nat) (mac : List Nat)
    (positions : List Nat) (hnodup : positions.Nodup)
    (hbound : ∀ c ∈ positions, c < entries.length)
    (htrig : ∃ c, ∃ hmem : c ∈ positions, ∃ hlt : c < entries.length,
      entries[c].valid = false ∨ entries[c].ip = ip) :
    arp_get_go (arp_update_go entries ip mac positions) ip positions = some mac := by
  induction positions with
  | nil =>
      obtain ⟨c, hmem, _⟩ := htrig
      simp at hmem
  | cons c rest ih =>
      have hnd := List.nodup_cons.mp hnodup
      have hcb : c < entries.length := hbound c (List.mem_cons_self c rest)
      unfold arp_update_go
      rw [dif_pos hcb]
      by_cases hv : entries[c].valid = false
      · rw [if_pos hv]
        unfold arp_get_go
        rw [dif_pos (by simpa using hcb)]
        simp
      · rw [if_neg hv]
        by_cases hip : entries[c].ip = ip
        · rw [if_pos hip]
          unfold arp_get_go
          rw [dif_pos (by simpa using hcb)]
          simp only [Bool.not_eq_false] at hv
          simp [hv, hip]
        · rw [if_neg hip]
          obtain ⟨hlen, hsame⟩ :=
            arp_update_go_outside entries ip mac rest c hnd.1 hcb
          unfold arp_get_go
          rw [dif_pos (by omega)]
          rw [hsame (by omega)]
          rw [if_neg (fun hpair => hip hpair.2), if_neg hv]
          refine ih hnd.2 (fun c' hc' => hbound c' (List.mem_cons_of_mem c hc')) ?_
          obtain ⟨c0, hc0mem, hc0lt, htr⟩ := htrig
          rcases List.mem_cons.mp hc0mem with h | h
          · subst h
            rcases htr with h' | h'
            · exact absurd h' hv
            · exact absurd h' hip
          · exact ⟨c0, h, hc0lt, htr⟩

theorem arp_update_go_full (entries : List arp_entry_t) (ip : Nat) (mac : List Nat)
    (positions : List Nat)
    (hfull : ∀ e ∈ entries, e.valid = true ∧ e.ip ≠ ip) :
    arp_update_go entries ip mac positions = entries := by
  induction positions with
  | nil => rfl
  | cons c rest ih =>
      unfold arp_update_go
      split_ifs with h1 h2 h3
      all_goals first
        | rfl
        | exact ih
        | (obtain ⟨hv, hπ⟩ := hfull _ (List.getElem_mem h1); simp_all)

theorem arp_get_go_full (entries : List arp_entry_t) (ip : Nat)
    (positions : List Nat)
    (hfull : ∀ e ∈ entries, e.valid = true ∧ e.ip ≠ ip) :
    arp_get_go entries ip positions = none := by
  induction positions with
  | nil => rfl
  | cons c rest ih =>
      unfold arp_get_go
      split_ifs with h1 h2 h3
      all_goals first
        | rfl
        | exact ih
        | (obtain ⟨hv, hπ⟩ := hfull _ (List.getElem_mem h1); simp_all)

theorem arp_update_go_length (entries : List arp_entry_t) (ip : Nat) (mac : List Nat)
    (positions : List Nat) :
    (arp_update_go entries ip mac positions).length = entries.length := by
  induction positions with
  | nil => rfl
  | cons c rest ih =>
      unfold arp_update_go
      split_ifs <;> simp [ih]

theorem arp_update_go_ips (entries : List arp_entry_t) (ip : Nat) (mac : List Nat)
    (positions : List Nat) :
    ∀ e' ∈ arp_update_go entries ip mac positions, e' ∈ entries ∨ e'.ip = ip := by
  induction positions with
  | nil => exact fun e' h => Or.inl h
  | cons c rest ih =>
      unfold arp_update_go
      split_ifs with h1 h2 h3
      · intro e' he'
        rcases List.mem_or_eq_of_mem_set he' with h | h
        · exact Or.inl h
        · subst h; exact Or.inr rfl
      · intro e' he'
        rcases List.mem_or_eq_of_mem_set he' with h | h
        · exact Or.inl h
        · subst h; exact Or.inr h3
      · exact ih
      · exact fun e' h => Or.inl h

theorem arp_get_go_miss (entries : List arp_entry_t) (ip : Nat)
    (positions : List Nat)
    (hq : ∀ e ∈ entries, e.valid = true → e.ip ≠ ip) :
    arp_get_go entries ip positions = none := by
  induction positions with
  | nil => rfl
  | cons c rest ih =>
      unfold arp_get_go
      split_ifs with h1 h2 h3
      · exact absurd h2.2 (hq _ (List.getElem_mem h1) h2.1)
      · rfl
      · exact ih
      · rfl

/-- `arp_update` applied for each `(ip, mac)` pair of a history, starting
from a freshly initialized table. -/
def arp_build (cap : Nat) (hist : List (Nat × List Nat)) : List arp_entry_t :=
  hist.foldl (fun es p => arp_update es p.1 p.2) (arp_table_init cap)

theorem arp_build_unlearned (cap : Nat) (hist : List (Nat × List Nat)) (ip : Nat)
    (hip : ∀ p ∈ hist, p.1 ≠ ip) :
    ∀ e ∈ arp_build cap hist, e.valid = true → e.ip ≠ ip := by
  unfold arp_build
  generalize hgen : arp_table_init cap = es0
  have h0 : ∀ e ∈ es0, e.valid = true → e.ip ≠ ip := by
    rw [← hgen]
    intro e he hv
    rw [List.eq_of_mem_replicate he] at hv
    cases hv
  clear hgen
  induction hist generalizing es0 with
  | nil => exact h0
  | cons p rest ih =>
      refine ih (fun q hq => hip q (List.mem_cons_of_mem p hq)) _ ?_
      intro e' he' hv
      rcases arp_update_go_ips es0 p.1 p.2 _ e' he' with h | h
      · exact h0 e' h hv
      · rw [h]; exact hip p (List.mem_cons_self p rest)

/- NDP mirrors of the ARP lemmas (`ndp_table.c` has the same probe logic
with a 16-byte key). -/

theorem ndp_update_go_length (entries : List ndp_entry_t) (ip mac : List Nat)
    (positions : List Nat) :
    (ndp_update_go entries ip mac positions).length = entries.length := by
  induction positions with
  | nil => rfl
  | cons c rest ih =>
      unfold ndp_update_go
      split_ifs <;> simp [ih]

theorem ndp_update_go_outside (entries : List ndp_entry_t) (ip mac : List Nat)
    (positions : List Nat) (c : Nat) (hc : c ∉ positions) (hcl : c < entries.length) :
    (ndp_update_go entries ip mac positions).length = entries.length ∧
    ∀ hlen : c < (ndp_update_go entries ip mac positions).length,
      (ndp_update_go entries ip mac positions)[c] = entries[c] := by
  induction positions with
  | nil => exact ⟨rfl, fun _ => rfl⟩
  | cons c' rest ih =>
      have hne : c' ≠ c := fun h => hc (h ▸ List.mem_cons_self c' rest)
      have hrest : c ∉ rest := fun h => hc (List.mem_cons_of_mem c' h)
      unfold ndp_update_go
      split_ifs with h1 h2 h3
      · exact ⟨by simp, fun hlen => List.getElem_set_ne hne hlen⟩
      · exact ⟨by simp, fun hlen => List.getElem_set_ne hne hlen⟩
      · exact ih hrest
      · exact ⟨rfl, fun _ => rfl⟩

theorem ndp_go_update_get (entries : List ndp_entry_t) (ip mac : List Nat)
    (positions : List Nat) (hnodup : positions.Nodup)
    (hbound : ∀ c ∈ positions, c < entries.length)
    (htrig : ∃ c, ∃ hmem : c ∈ positions, ∃ hlt : c < entries.length,
      entries[c].valid = false ∨ entries[c].ip = ip) :
    ndp_get_go (ndp_update_go entries ip mac positions) ip positions = some mac := by
  induction positions with
  | nil =>
      obtain ⟨c, hmem, _⟩ := htrig
      simp at hmem
  | cons c rest ih =>
      have hnd := List.nodup_cons.mp hnodup
      have hcb : c < entries.length := hbound c (List.mem_cons_self c rest)
      unfold ndp_update_go
      rw [dif_pos hcb]
      by_cases hv : entries[c].valid = false
      · rw [if_pos hv]
        unfold ndp_get_go
        rw [dif_pos (by simpa using hcb)]
        simp
      · rw [if_neg hv]
        by_cases hip : entries[c].ip = ip
        · rw [if_pos hip]
          unfold ndp_get_go
          rw [dif_pos (by simpa using hcb)]
          simp only [Bool.not_eq_false] at hv
          simp [hv, hip]
        · rw [if_neg hip]
          obtain ⟨hlen, hsame⟩ :=
            ndp_update_go_outside entries ip mac rest c hnd.1 hcb
          unfold ndp_get_go
          rw [dif_pos (by omega)]
          rw [hsame (by omega)]
          rw [if_neg (fun hpair => hip hpair.2), if_neg hv]
          refine ih hnd.2 (fun c' hc' => hbound c' (List.mem_cons_of_mem c hc')) ?_
          obtain ⟨c0, hc0mem, hc0lt, htr⟩ := htrig
          rcases List.mem_cons.mp hc0mem with h | h
          · subst h
            rcases htr with h' | h'
            · exact absurd h' hv
            · exact absurd h' hip
          · exact ⟨c0, h, hc0lt, htr⟩

theorem ndp_update_go_full (entries : List ndp_entry_t) (ip mac : List Nat)
    (positions : List Nat)
    (hfull : ∀ e ∈ entries, e.valid = true ∧ e.ip ≠ ip) :
    ndp_update_go entries ip mac positions = entries := by
  induction positions with
  | nil => rfl
  | cons c rest ih =>
      unfold ndp_update_go
      split_ifs with h1 h2 h3
      all_goals first
        | rfl
        | exact ih
        | (obtain ⟨hv, hπ⟩ := hfull _ (List.getElem_mem h1); simp_all)

theorem ndp_update_go_ips (entries : List ndp_entry_t) (ip mac : List Nat)
    (positions : List Nat) :
    ∀ e' ∈ ndp_update_go entries ip mac positions, e' ∈ entries ∨ e'.ip = ip := by
  induction positions with
  | nil => exact fun e' h => Or.inl h
  | cons c rest ih =>
      unfold ndp_update_go
      split_ifs with h1 h2 h3
      · intro e' he'
        rcases List.mem_or_eq_of_mem_set he' with h | h
        · exact Or.inl h
        · subst h; exact Or.inr rfl
      · intro e' he'
        rcases List.mem_or_eq_of_mem_set he' with h | h
        · exact Or.inl h
        · subst h; exact Or.inr h3
      · exact ih
      · exact fun e' h => Or.inl h

theorem ndp_get_go_miss (entries : List ndp_entry_t) (ip : List Nat)
    (positions : List Nat)
    (hq : ∀ e ∈ entries, e.valid = true → e.ip ≠ ip) :
    ndp_get_go entries ip positions = none := by
  induction positions with
  | nil => rfl
  | cons c rest ih =>
      unfold ndp_get_go
      split_ifs with h1 h2 h3
      · exact absurd h2.2 (hq _ (List.getElem_mem h1) h2.1)
      · rfl
      · exact ih
      · rfl

/-- `ndp_update` applied for each `(ip, mac)` pair of a history, starting
from a freshly initialized table. -/
def ndp_build (cap : Nat) (hist : List (List Nat × List Nat)) : List ndp_entry_t :=
  hist.foldl (fun es p => ndp_update es p.1 p.2) (ndp_table_init cap)

theorem ndp_build_unlearned (cap : Nat) (hist : List (List Nat × List Nat))
    (ip : List Nat) (hip : ∀ p ∈ hist, p.1 ≠ ip) :
    ∀ e ∈ ndp_build cap hist, e.valid = true → e.ip ≠ ip := by
  unfold ndp_build
  generalize hgen : ndp_table_init cap = es0
  have h0 : ∀ e ∈ es0, e.valid = true → e.ip ≠ ip := by
    rw [← hgen]
    intro e he hv
    rw [List.eq_of_mem_replicate he] at hv
    cases hv
  clear hgen
  induction hist generalizing es0 with
  | nil => exact h0
  | cons p rest ih =>
      refine ih (fun q hq => hip q (List.mem_cons_of_mem p hq)) _ ?_
      intro e' he' hv
      rcases ndp_update_go_ips es0 p.1 p.2 _ e' he' with h | h
      · exact h0 e' h hv
      · rw [h]; exact hip p (List.mem_cons_self p rest)

/-- C8 (amended): for both neighbor tables, `update(ip, mac)` followed by
`get(ip)` returns `mac` whenever the table has an empty slot or already
holds `ip` (so the probe loop actually inserts or refreshes - on a table
whose every slot is valid with a different IP the update is a no-op, see
the full-table theorem); and `get(ip)` of an address never updated misses,
for any table built by a history of updates from a fresh table. -/
theorem C8_neighbor_update_get :
    (∀ (entries : List arp_entry_t) (ip : Nat) (mac : List Nat),
      (∃ e ∈ entries, e.valid = false ∨ e.ip = ip) →
      arp_get_mac (arp_update entries ip mac) ip = some mac) ∧
    (∀ (cap : Nat) (hist : List (Nat × List Nat)) (ip : Nat),
      (∀ p ∈ hist, p.1 ≠ ip) → arp_get_mac (arp_build cap hist) ip = none) ∧
    (∀ (entries : List ndp_entry_t) (ip mac : List Nat),
      (∃ e ∈ entries, e.valid = false ∨ e.ip = ip) →
      ndp_get_mac (ndp_update entries ip mac) ip = some mac) ∧
    (∀ (cap : Nat) (hist : List (List Nat × List Nat)) (ip : List Nat),
      (∀ p ∈ hist, p.1 ≠ ip) → ndp_get_mac (ndp_build cap hist) ip = none) := by
  refine ⟨?_, ?_, ?_, ?_⟩
  · intro entries ip mac hex
    obtain ⟨e, hmem, htr⟩ := hex
    obtain ⟨j, hj, rfl⟩ := List.mem_iff_getElem.mp hmem
    unfold arp_get_mac arp_update
    rw [arp_update_go_length]
    exact arp_go_update_get entries ip mac _ (probe_seq_nodup _ _)
      (fun c hc => probe_seq_bound _ _ c hc)
      ⟨j, probe_seq_mem _ _ j hj, hj, htr⟩
  · intro cap hist ip hip
    unfold arp_get_mac
    exact arp_get_go_miss _ ip _ (arp_build_unlearned cap hist ip hip)
  · intro entries ip mac hex
    obtain ⟨e, hmem, htr⟩ := hex
    obtain ⟨j, hj, rfl⟩ := List.mem_iff_getElem.mp hmem
    unfold ndp_get_mac ndp_update
    rw [ndp_update_go_length]
    exact ndp_go_update_get entries ip mac _ (probe_seq_nodup _ _)
      (fun c hc => probe_seq_bound _ _ c hc)
      ⟨j, probe_seq_mem _ _ j hj, hj, htr⟩
  · intro cap hist ip hip
    unfold ndp_get_mac
    exact ndp_get_go_miss _ ip _ (ndp_build_unlearned cap hist ip hip)

/-- C8 witness: learning 10.128.0.1 in a fresh 4-slot ARP table and reading
it back; an unlearned IP misses; relearning with a different MAC overwrites
(S9).  The NDP half is exercised on a fresh 4-slot table. -/
theorem C8_neighbor_update_get_witness :
    arp_get_mac (arp_update (arp_table_init 4) 0x0A800001 [1, 2, 3, 4, 5, 6])
      0x0A800001 = some [1, 2, 3, 4, 5, 6] ∧
    arp_get_mac (arp_build 4 [(0x0A800001, [1, 2, 3, 4, 5, 6])]) 0x0AAA015C = none ∧
    arp_get_mac (arp_update (arp_update (arp_table_init 4) 0x0A800001 [1, 2, 3, 4, 5, 6])
      0x0A800001 [9, 9, 9, 9, 9, 9]) 0x0A800001 = some [9, 9, 9, 9, 9, 9] ∧
    ndp_get_mac (ndp_update (ndp_table_init 4) (List.replicate 15 0 ++ [1]) [1, 2, 3, 4, 5, 6])
      (List.replicate 15 0 ++ [1]) = some [1, 2, 3, 4, 5, 6] :=
  ⟨C8_neighbor_update_get.1 _ _ _ (by decide),
   C8_neighbor_update_get.2.1 4 _ _ (by decide),
   C8_neighbor_update_get.1 _ _ _ (by decide),
   C8_neighbor_update_get.2.2.1 _ _ _ (by decide)⟩

/-- A full one-slot ARP table holding a different IP. -/
def c8_full : List arp_entry_t := [{ ip := 5, mac := [1, 1, 1, 1, 1, 1], valid := true }]

/-- C8 counterexample: on a full table holding only other IPs, `update`
inserts nothing, so the next `get` of the updated IP misses instead of
returning the MAC just passed to `update` - the claim's unconditional
update-then-get property fails. -/
theorem C8_full_table_update_lost :
    arp_get_mac (arp_update c8_full 7 [2, 2, 2, 2, 2, 2]) 7 = none := by decide

/-- C10: when every slot of a neighbor table is valid and none holds `ip`,
`update(ip, mac)` exhausts the probe loop without modifying any entry, and
a subsequent `get(ip)` still misses; for ARP and NDP alike. -/
theorem C10_neighbor_full_noop :
    (∀ (entries : List arp_entry_t) (ip : Nat) (mac : List Nat),
      (∀ e ∈ entries, e.valid = true ∧ e.ip ≠ ip) →
      arp_update entries ip mac = entries ∧
      arp_get_mac (arp_update entries ip mac) ip = none) ∧
    (∀ (entries : List ndp_entry_t) (ip mac : List Nat),
      (∀ e ∈ entries, e.valid = true ∧ e.ip ≠ ip) →
      ndp_update entries ip mac = entries ∧
      ndp_get_mac (ndp_update entries ip mac) ip = none) := by
  constructor
  · intro entries ip mac hfull
    have hupd : arp_update entries ip mac = entries :=
      arp_update_go_full entries ip mac _ hfull
    refine ⟨hupd, ?_⟩
    rw [hupd]
    unfold arp_get_mac
    exact arp_get_go_miss _ ip _ (fun e he _ => (hfull e he).2)
  · intro entries ip mac hfull
    have hupd : ndp_update entries ip mac = entries :=
      ndp_update_go_full entries ip mac _ hfull
    refine ⟨hupd, ?_⟩
    rw [hupd]
    unfold ndp_get_mac
    exact ndp_get_go_miss _ ip _ (fun e he _ => (hfull e he).2)

/-- C10 witness: the full-table no-op theorem applied to the one-slot
tables. -/
theorem C10_neighbor_full_noop_witness :
    (arp_update c8_full 7 [2, 2, 2, 2, 2, 2] = c8_full ∧
      arp_get_mac (arp_update c8_full 7 [2, 2, 2, 2, 2, 2]) 7 = none) ∧
    (ndp_update [{ ip := List.replicate 16 3, mac := [1, 1, 1, 1, 1, 1], valid := true }]
        (List.replicate 16 4) [2, 2, 2, 2, 2, 2]
      = [{ ip := List.replicate 16 3, mac := [1, 1, 1, 1, 1, 1], valid := true }] ∧
      ndp_get_mac (ndp_update
        [{ ip := List.replicate 16 3, mac := [1, 1, 1, 1, 1, 1], valid := true }]
        (List.replicate 16 4) [2, 2, 2, 2, 2, 2]) (List.replicate 16 4) = none) :=
  ⟨C10_neighbor_full_noop.1 c8_full 7 _ (by decide),
   C10_neighbor_full_noop.2 _ _ _ (by decide)⟩

theorem getD_set_ne (l : List α) (i j : Nat) (a d : α) (h : i ≠ j) :
    (l.set i a).getD j d = l.getD j d := by
  rw [List.getD_eq_get?, List.getD_eq_get?, List.get?_set_ne _ _ h]

theorem getD_set_self (l : List α) (i : Nat) (a d : α) (h : i < l.length) :
    (l.set i a).getD i d = a := by
  rw [List.getD_eq_get?, List.get?_set_eq_of_lt a h]
  rfl

theorem write_slots_length (mask : Nat) (objs : List α) :
    ∀ (slots : List α) (pos : Nat), (write_slots mask slots pos objs).length = slots.length := by
  induction objs with
  | nil => intro slots pos; rfl
  | cons x xs ih =>
      intro slots pos
      unfold write_slots
      rw [ih]
      simp

theorem write_slots_getD_notin (e : Nat) (objs : List α) :
    ∀ (slots : List α) (pos idx : Nat) (d : α),
      (∀ j, j < objs.length → (pos + j) % 2^e ≠ idx) →
      (write_slots (2^e - 1) slots pos objs).getD idx d = slots.getD idx d := by
  induction objs with
  | nil => intro slots pos idx d _; rfl
  | cons x xs ih =>
      intro slots pos idx d hnot
      unfold write_slots
      rw [Nat.and_pow_two_sub_one_eq_mod]
      rw [ih (slots.set (pos % 2^e) x) (pos + 1) idx d ?next]
      · exact getD_set_ne _ _ _ _ _ (by simpa using hnot 0 (by simp))
      case next =>
        intro j hj
        have := hnot (j + 1) (by simp; omega)
        rwa [show pos + (j + 1) = pos + 1 + j by omega] at this

theorem write_slots_getD_at (e : Nat) (objs : List α) :
    ∀ (slots : List α) (pos : Nat) (d : α),
      slots.length = 2^e → objs.length ≤ 2^e →
      ∀ j, j < objs.length →
        (write_slots (2^e - 1) slots pos objs).getD ((pos + j) % 2^e) d = objs.getD j d := by
  induction objs with
  | nil => intro slots pos d _ _ j hj; simp at hj
  | cons x xs ih =>
      intro slots pos d hlen hle j hj
      unfold write_slots
      rw [Nat.and_pow_two_sub_one_eq_mod]
      match j with
      | 0 =>
          rw [write_slots_getD_notin e xs (slots.set (pos % 2^e) x) (pos + 1)
            ((pos + 0) % 2^e) d ?fresh]
          · simp only [Nat.add_zero]
            exact getD_set_self _ _ _ _ (by rw [hlen]; exact Nat.mod_lt _ (by positivity))
          case fresh =>
            intro j' hj' heq
            have h1 : pos + 1 + j' = pos + (1 + j') := by omega
            rw [h1, Nat.add_zero] at heq
            have h3 : (1 + j') % 2^e = 0 % 2^e :=
              Nat.ModEq.add_left_cancel' pos
                (show (pos + (1 + j')) % 2^e = (pos + 0) % 2^e by simpa using heq)
            have hlt : 1 + j' < 2^e := by
              simp at hle
              omega
            rw [Nat.mod_eq_of_lt hlt] at h3
            simp at h3
      | j'' + 1 =>
          rw [show pos + (j'' + 1) = (pos + 1) + j'' by omega]
          have := ih (slots.set (pos % 2^e) x) (pos + 1) d (by simpa using hlen)
            (by simp at hle ⊢; omega) j'' (by simpa using hj)
          simpa using this

/-- The logical content of a ring: the slot values from `tail` (inclusive)
to `head` (exclusive), read through the modular indexing. -/
def ring_queue [Inhabited α] (r : spsc_ring_t α) : List α :=
  (List.range (r.head - r.tail)).map fun i => r.slots.getD ((r.tail + i) % r.capacity) default

/-- Invariant of a single-producer/single-consumer run on a ring of
capacity `2^e`: well-formed geometry, at most `2^e` elements in flight, and
the accepted pushes are exactly the pops already delivered followed by the
ring content. -/
def ring_inv [Inhabited α] (e : Nat) (s : ring_trace α) : Prop :=
  s.ring.capacity = 2^e ∧ s.ring.mask = 2^e - 1 ∧ s.ring.slots.length = 2^e ∧
  s.ring.tail ≤ s.ring.head ∧ s.ring.head - s.ring.tail ≤ 2^e ∧
  s.accepted = s.popped ++ ring_queue s.ring

theorem ring_queue_push [Inhabited α] (e : Nat) (r : spsc_ring_t α) (objs : List α)
    (n : Nat) (hcap : r.capacity = 2^e) (hmaskr : r.mask = 2^e - 1)
    (hlen : r.slots.length = 2^e)
    (hht : r.tail ≤ r.head) (hroom : r.head - r.tail + n ≤ 2^e)
    (hn : n ≤ objs.length) :
    ring_queue { r with slots := write_slots r.mask r.slots r.head (objs.take n)
                        head := r.head + n }
      = ring_queue r ++ objs.take n := by
  have htaken : (objs.take n).length = n := by simp [hn]
  unfold ring_queue
  simp only [hcap, hmaskr]
  refine List.ext_getElem ?_ ?_
  · simp [htaken]
    omega
  · intro i hi1 hi2
    simp only [List.getElem_map, List.getElem_range]
    by_cases hcase : i < r.head - r.tail
    · have hleft : ((List.range (r.head - r.tail)).map
          (fun i => r.slots.getD ((r.tail + i) % 2^e) default)).length = r.head - r.tail := by
        simp
      rw [List.getElem_append_left (by simpa [hleft] using hcase)]
      simp only [List.getElem_map, List.getElem_range]
      rw [write_slots_getD_notin e (objs.take n) r.slots r.head ((r.tail + i) % 2^e) default]
      intro j hj heq
      rw [htaken] at hj
      have hhead : r.head = r.tail + (r.head - r.tail) := by omega
      rw [hhead, Nat.add_assoc] at heq
      have h3 : (r.head - r.tail + j) % 2^e = i % 2^e :=
        Nat.ModEq.add_left_cancel' r.tail heq
      rw [Nat.mod_eq_of_lt (by omega), Nat.mod_eq_of_lt (by omega)] at h3
      omega
    · have hqlen : ((List.range (r.head - r.tail)).map
          (fun i => r.slots.getD ((r.tail + i) % 2^e) default)).length = r.head - r.tail := by
        simp
      rw [List.getElem_append_right (by simpa [hqlen] using hcase)]
      have hj : i - (r.head - r.tail) < n := by
        simp at hi1
        omega
      have harg : r.tail + i = r.head + (i - (r.head - r.tail)) := by omega
      rw [harg]
      rw [write_slots_getD_at e (objs.take n) r.slots r.head default hlen
        (by rw [htaken]; omega) _ (by rw [htaken]; exact hj)]
      rw [List.getD_eq_getElem _ _ (by rw [htaken]; exact hj)]
      simp [hqlen]

theorem ring_step_inv [Inhabited α] (e : Nat) (s : ring_trace α) (op : ring_op α)
    (h : ring_inv e s) : ring_inv e (ring_step s op) := by
  obtain ⟨hcap, hmask, hlen, hht, hroom, hacc⟩ := h
  cases op with
  | push objs =>
      unfold ring_step ring_push_burst ring_inv
      dsimp only
      set n := min objs.length (s.ring.capacity - (s.ring.head - s.ring.tail)) with hn
      have hn1 : n ≤ objs.length := Nat.min_le_left _ _
      have hn2 : s.ring.head - s.ring.tail + n ≤ 2^e := by
        have := Nat.min_le_right objs.length (s.ring.capacity - (s.ring.head - s.ring.tail))
        omega
      refine ⟨hcap, hmask, ?_, by omega, by omega, ?_⟩
      · rw [write_slots_length]
        exact hlen
      · rw [hacc, List.append_assoc]
        congr 1
        exact (ring_queue_push e s.ring objs n hcap hmask hlen hht hn2 hn1).symm
  | pop count =>
      unfold ring_step ring_pop_burst ring_inv
      dsimp only
      set n := min count (s.ring.head - s.ring.tail) with hn
      have hn2 : n ≤ s.ring.head - s.ring.tail := Nat.min_le_right _ _
      refine ⟨hcap, hmask, hlen, by omega, by omega, ?_⟩
      have hout : (List.range n).map
          (fun i => s.ring.slots.getD ((s.ring.tail + i) &&& s.ring.mask) default)
          = (ring_queue s.ring).take n := by
        refine List.ext_getElem ?_ ?_
        · simp [ring_queue]
          omega
        · intro i hi1 hi2
          simp only [List.getElem_map, List.getElem_range, List.getElem_take]
          simp only [ring_queue, List.getElem_map, List.getElem_range]
          rw [hmask, hcap, Nat.and_pow_two_sub_one_eq_mod]
      have hqueue : ring_queue { s.ring with tail := s.ring.tail + n }
          = (ring_queue s.ring).drop n := by
        refine List.ext_getElem ?_ ?_
        · simp [ring_queue]
          omega
        · intro i hi1 hi2
          simp only [ring_queue, List.getElem_map, List.getElem_range, List.getElem_drop]
          have : s.ring.tail + n + i = s.ring.tail + (n + i) := by omega
          rw [this]
      rw [hacc, hout, hqueue, List.append_assoc, List.take_append_drop]

theorem ring_run_inv [Inhabited α] (e : Nat) (d : α) (ops : List (ring_op α)) :
    ring_inv e (ring_run (2^e) d ops) := by
  unfold ring_run
  generalize hgen :
    ({ ring := { slots := List.replicate (2^e) d, capacity := 2^e
                 mask := 2^e - 1, head := 0, tail := 0 }
       accepted := [], popped := [] } : ring_trace α) = s0
  have h0 : ring_inv e s0 := by
    rw [← hgen]
    refine ⟨rfl, rfl, by simp, le_refl _, by simp, by simp [ring_queue]⟩
  clear hgen
  induction ops generalizing s0 with
  | nil => exact h0
  | cons op rest ih => exact ih _ (ring_step_inv e s0 op h0)

/-- The burst schedule of seed test S1 phrased with bursts of one: push
1,2,3,4 (all accepted), a fifth push (rejected, ring full), pop one (yields
1), push 5 (accepted, lands in slot 0), pop four (yields 2,3,4,5), pop one
more (yields nothing). -/
def c5_ops : List (ring_op Nat) :=
  [.push [1], .push [2], .push [3], .push [4], .push [5],
   .pop 1, .push [5], .pop 4, .pop 1]

/-- C5: on a freshly initialized power-of-two ring, any single-producer/
single-consumer sequence of burst pushes and pops delivers the popped
elements as a prefix of the accepted pushed elements (FIFO); a push burst
on a full ring accepts 0 and changes nothing, a pop burst on an empty ring
returns nothing; `ring_init` accepts capacity 4 and rejects 100; and the S1
schedule behaves as the scenario prescribes. -/
theorem C5_ring_fifo :
    (∀ (α : Type) (inst : Inhabited α) (e : Nat) (d : α) (ops : List (ring_op α)),
      (ring_run (2^e) d ops).popped <+: (ring_run (2^e) d ops).accepted) ∧
    (∀ (α : Type) (inst : Inhabited α) (r : spsc_ring_t α) (objs : List α),
      r.head - r.tail = r.capacity → ring_push_burst r objs = (r, 0)) ∧
    (∀ (α : Type) (inst : Inhabited α) (r : spsc_ring_t α) (count : Nat),
      r.head = r.tail → ring_pop_burst r count = (r, [])) ∧
    ring_init Nat 4 0
      = some { slots := [0, 0, 0, 0], capacity := 4, mask := 3, head := 0, tail := 0 } ∧
    ring_init Nat 100 0 = none ∧
    (ring_run 4 0 (c5_ops.take 4)).accepted = [1, 2, 3, 4] ∧
    (ring_run 4 0 (c5_ops.take 5)).accepted = [1, 2, 3, 4] ∧
    (ring_run 4 0 (c5_ops.take 6)).popped = [1] ∧
    (ring_run 4 0 (c5_ops.take 7)).ring.slots = [5, 2, 3, 4] ∧
    (ring_run 4 0 (c5_ops.take 8)).popped = [1, 2, 3, 4, 5] ∧
    (ring_run 4 0 c5_ops).popped = [1, 2, 3, 4, 5] ∧
    (ring_run 4 0 c5_ops).ring.head = (ring_run 4 0 c5_ops).ring.tail := by
  refine ⟨?_, ?_, ?_, by decide, by decide, by decide, by decide, by decide,
    by decide, by decide, by decide, by decide⟩
  · intro α inst e d ops
    obtain ⟨-, -, -, -, -, hacc⟩ := ring_run_inv e d ops
    exact ⟨ring_queue (ring_run (2^e) d ops).ring, hacc.symm⟩
  · intro α inst r objs h
    unfold ring_push_burst
    simp [h]
    rfl
  · intro α inst r count h
    obtain ⟨sl, cp, mk, hd, tl⟩ := r
    simp only at h
    subst h
    unfold ring_pop_burst
    simp

/-- C5 witness: the full-ring and empty-ring clauses applied to the ring
after the four S1 pushes (full) and after the whole S1 schedule (empty). -/
theorem C5_ring_fifo_witness :
    ((ring_run 4 0 (c5_ops.take 4)).ring.head - (ring_run 4 0 (c5_ops.take 4)).ring.tail
      = (ring_run 4 0 (c5_ops.take 4)).ring.capacity) ∧
    ring_push_burst (ring_run 4 0 (c5_ops.take 4)).ring [9]
      = ((ring_run 4 0 (c5_ops.take 4)).ring, 0) ∧
    ring_pop_burst (ring_run 4 0 c5_ops).ring 1 = ((ring_run 4 0 c5_ops).ring, []) :=
  ⟨by decide,
   C5_ring_fifo.2.1 Nat inferInstance _ [9] (by decide),
   C5_ring_fifo.2.2.1 Nat inferInstance _ 1 (by decide)⟩

/-- The handles a thread can still allocate, in allocation order from the
back: the global stack followed by the thread cache bound to the pool. -/
def eff_list (w : pktbuf_world_t) : List Nat :=
  w.stack ++ (if w.cache_bound then w.cache else [])

theorem pktbuf_alloc_refill (stack : List Nat) (cache : List Nat)
    (hc : cache = []) (hstack : stack ≠ []) :
    ∃ b w', pktbuf_alloc ⟨stack, true, cache⟩ = (some b, w') ∧
      eff_list w' ++ [b] = stack ∧ w'.cache_bound = true := by
  subst hc
  unfold pktbuf_alloc pktbuf_bind global_pop_bulk
  have hlen : 0 < stack.length := List.length_pos.mpr hstack
  have hdlen : (stack.drop (stack.length - min 32 stack.length)).length
      = min 32 stack.length := by
    simp
    omega
  have hd : stack.drop (stack.length - min 32 stack.length) ≠ [] := by
    intro hnil
    rw [hnil] at hdlen
    simp at hdlen
    omega
  simp only [if_true]
  rw [dif_neg (by simp)]
  rw [dif_pos (by simpa using hd)]
  refine ⟨_, _, rfl, ?_, rfl⟩
  simp only [eff_list, if_true, List.append_assoc]
  rw [List.dropLast_append_getLast hd, List.take_append_drop]

theorem pktbuf_alloc_some (w : pktbuf_world_t) (hne : eff_list w ≠ []) :
    ∃ b w', pktbuf_alloc w = (some b, w') ∧ eff_list w' ++ [b] = eff_list w ∧
      w'.cache_bound = true := by
  obtain ⟨stack, bound, cache⟩ := w
  cases bound with
  | false =>
      have hstack : stack ≠ [] := by simpa [eff_list] using hne
      have hsame : pktbuf_alloc ⟨stack, false, cache⟩ = pktbuf_alloc ⟨stack, true, []⟩ := by
        unfold pktbuf_alloc pktbuf_bind
        rfl
      rw [hsame]
      have h := pktbuf_alloc_refill stack [] rfl hstack
      simpa [eff_list] using h
  | true =>
      by_cases hc : cache = []
      · have hstack : stack ≠ [] := by simpa [eff_list, hc] using hne
        have h := pktbuf_alloc_refill stack cache hc hstack
        simpa [eff_list, hc] using h
      · unfold pktbuf_alloc pktbuf_bind
        simp only [if_true]
        rw [dif_pos (by simpa using hc)]
        refine ⟨_, _, rfl, ?_, rfl⟩
        simp only [eff_list, if_true, List.append_assoc]
        rw [List.dropLast_append_getLast]

theorem pktbuf_alloc_none (w : pktbuf_world_t) (hnil : eff_list w = []) :
    (pktbuf_alloc w).1 = none ∧ eff_list (pktbuf_alloc w).2 = [] := by
  obtain ⟨stack, bound, cache⟩ := w
  have hstack : stack = [] := by
    rcases List.append_eq_nil.mp hnil with ⟨h1, _⟩
    exact h1
  subst hstack
  cases bound with
  | false =>
      unfold pktbuf_alloc pktbuf_bind global_pop_bulk
      simp [eff_list]
  | true =>
      have hcache : cache = [] := by simpa [eff_list] using hnil
      subst hcache
      unfold pktbuf_alloc pktbuf_bind global_pop_bulk
      simp [eff_list]

theorem pktbuf_alloc_run_all (n : Nat) :
    ∀ w : pktbuf_world_t, (eff_list w).length = n →
      (pktbuf_alloc_run w n).1 = (eff_list w).reverse.map some ∧
      eff_list (pktbuf_alloc_run w n).2 = [] := by
  induction n with
  | zero =>
      intro w hw
      rw [List.length_eq_zero] at hw
      simp [pktbuf_alloc_run, hw]
  | succ n ih =>
      intro w hw
      have hne : eff_list w ≠ [] := by
        intro hnil
        rw [hnil] at hw
        simp at hw
      obtain ⟨b, w', heq, hsplit, _⟩ := pktbuf_alloc_some w hne
      have hlen' : (eff_list w').length = n := by
        have := congrArg List.length hsplit
        simp at this
        omega
      obtain ⟨ih1, ih2⟩ := ih w' hlen'
      unfold pktbuf_alloc_run
      rw [heq]
      refine ⟨?_, ih2⟩
      simp only [ih1]
      rw [← hsplit]
      simp

/-- C7: from a freshly initialized pool of capacity `N`, the first `N`
allocations on one thread succeed with `N` distinct buffers and the
`(N+1)`-th returns empty; on a pool-bound thread, allocation returns empty
exactly when both the thread cache and the global stack are empty; and
immediately after freeing a buffer, the next allocation on the same thread
returns that very buffer (LIFO through the thread cache). -/
theorem C7_pool_alloc :
    (∀ N : Nat,
      (∀ x ∈ (pktbuf_alloc_run (pktbuf_pool_init N) N).1, x.isSome = true) ∧
      ((pktbuf_alloc_run (pktbuf_pool_init N) N).1.filterMap id).Nodup ∧
      ((pktbuf_alloc_run (pktbuf_pool_init N) N).1.filterMap id).length = N ∧
      (pktbuf_alloc (pktbuf_alloc_run (pktbuf_pool_init N) N).2).1 = none) ∧
    (∀ w : pktbuf_world_t, w.cache_bound = true →
      ((pktbuf_alloc w).1 = none ↔ (w.cache = [] ∧ w.stack = []))) ∧
    (∀ (w : pktbuf_world_t) (b : Nat),
      (pktbuf_alloc (pktbuf_free w b)).1 = some b) := by
  refine ⟨?_, ?_, ?_⟩
  · intro N
    have hinit : eff_list (pktbuf_pool_init N) = List.range N := by
      simp [eff_list, pktbuf_pool_init]
    obtain ⟨h1, h2⟩ := pktbuf_alloc_run_all N (pktbuf_pool_init N) (by simp [hinit])
    rw [h1, hinit]
    refine ⟨?_, ?_, ?_, (pktbuf_alloc_none _ h2).1⟩
    · intro x hx
      simp only [List.mem_map] at hx
      obtain ⟨y, _, rfl⟩ := hx
      rfl
    · have hclean : ((List.range N).reverse.map some).filterMap id
          = (List.range N).reverse := by
        simp [List.filterMap_map]
      rw [hclean, List.nodup_reverse]
      exact List.nodup_range N
    · simp [List.filterMap_map]
  · intro w hb
    obtain ⟨stack, bound, cache⟩ := w
    simp only at hb
    subst hb
    constructor
    · intro hnone
      by_cases hc : cache = []
      · refine ⟨hc, ?_⟩
        by_contra hstack
        have hne : eff_list ⟨stack, true, cache⟩ ≠ [] := by
          simp [eff_list, hc]
          exact hstack
        obtain ⟨b, w', heq, -, -⟩ := pktbuf_alloc_some _ hne
        rw [heq] at hnone
        cases hnone
      · have hne : eff_list ⟨stack, true, cache⟩ ≠ [] := by
          simp [eff_list]
          intro h1 h2
          exact hc h2
        obtain ⟨b, w', heq, -, -⟩ := pktbuf_alloc_some _ hne
        rw [heq] at hnone
        cases hnone
    · intro ⟨hc, hs⟩
      simp only at hc hs
      exact (pktbuf_alloc_none _ (by simp [eff_list, hc, hs])).1
  · intro w b
    obtain ⟨stack, bound, cache⟩ := w
    cases bound with
    | false =>
        unfold pktbuf_free pktbuf_bind
        simp only [Bool.false_eq_true, if_false, if_pos (by simp : ([] : List Nat).length < 64)]
        unfold pktbuf_alloc pktbuf_bind
        rw [dif_pos (by simp)]
        simp
    | true =>
        unfold pktbuf_free pktbuf_bind
        simp only [if_true]
        by_cases hsmall : cache.length < 64
        · rw [if_pos hsmall]
          unfold pktbuf_alloc pktbuf_bind
          rw [dif_pos (by simp)]
          simp
        · rw [if_neg hsmall]
          unfold pktbuf_alloc pktbuf_bind
          rw [dif_pos (by simp)]
          simp

/-- C7 witness: the pool theorem applied at capacity 3 (seed test S8) and
the LIFO clause applied after exhausting that pool and freeing one buffer:
the freed buffer 1 is allocated again at once. -/
theorem C7_pool_alloc_witness :
    ((pktbuf_alloc_run (pktbuf_pool_init 3) 3).1.filterMap id).length = 3 ∧
    (pktbuf_alloc (pktbuf_alloc_run (pktbuf_pool_init 3) 3).2).1 = none ∧
    (pktbuf_alloc (pktbuf_free (pktbuf_alloc_run (pktbuf_pool_init 3) 3).2 1)).1 = some 1 :=
  ⟨(C7_pool_alloc.1 3).2.2.1, (C7_pool_alloc.1 3).2.2.2,
   C7_pool_alloc.2.2 (pktbuf_alloc_run (pktbuf_pool_init 3) 3).2 1⟩

end UPE
